import Mathlib

/-!
# MyConfiguration: a shallow embedding of `config`

Source: `src/MyConfiguration.hpp`.

* A C++ `std::string` is a `List Char`, a `char` the `Char` of its code.
* `std::map<string, string>` is an association list kept in strictly increasing
  key order (`std::less<std::string>`), with `operator[]=` as `Map.insert` and
  `at` as `Map.at`.
* A thrown exception is the `Except.error` result; diagnostic output on `cout`
  is not part of the model.
* The input file is the list of its characters, `none` when it cannot be opened.
-/

namespace MyConfiguration

/-! ## Exceptions -/

/-- The exception classes of `config`, and the two `std::stod` can throw. -/
inductive Exn where
  | file_notfound
  | key_notfound
  | incompatible_format
  | value_notfound
  | num_invalid
  | std_invalid_argument
  | std_out_of_range
  deriving DecidableEq, Repr

deriving instance DecidableEq for Except

/-! ## `std::string` operations used by the source -/

/-- The call `s.find(c)` (also `find_first_of(c)`): index of the first `c`, `none` for `npos`. -/
def find (c : Char) : List Char → Option Nat
  | [] => none
  | x :: xs => if x = c then some 0 else (find c xs).map (· + 1)

/-- The call `s.find_last_of(c)`: index of the last `c`, `none` for `npos`. -/
def find_last_of (c : Char) : List Char → Option Nat
  | [] => none
  | x :: xs =>
    match find_last_of c xs with
    | some i => some (i + 1)
    | none => if x = c then some 0 else none

/-- The call `s.substr(pos, n)`, for `pos ≤ s.size()`. -/
def substr (s : List Char) (pos n : Nat) : List Char :=
  (s.drop pos).take n

/-- The erase/remove_if idiom of lines 157-159: drops every `' '`. -/
def remove_spaces (s : List Char) : List Char :=
  s.filter (fun c => !(c == ' '))

/-- The C function `isdigit`: true on `'0'`..`'9'` only. -/
def isdigit (c : Char) : Bool :=
  decide ('0'.toNat ≤ c.toNat) && decide (c.toNat ≤ '9'.toNat)

/-- Order of `std::string` (`operator<`): lexicographic on the character codes, a
string before its proper extensions. -/
def str_lt : List Char → List Char → Bool
  | [], [] => false
  | [], _ :: _ => true
  | _ :: _, [] => false
  | a :: as, b :: bs =>
    if a.toNat < b.toNat then true
    else if b.toNat < a.toNat then false
    else str_lt as bs

/-! ## `std::map<string, string>` -/

/-- The member `content`: entries in increasing key order. -/
abbrev Map := List (List Char × List Char)

/-- The assignment `content[key] = value`: overwrites the entry of `key`, or adds one
at its place in key order. -/
def Map.insert (key value : List Char) : Map → Map
  | [] => [(key, value)]
  | (k, v) :: rest =>
    if str_lt key k then (key, value) :: (k, v) :: rest
    else if key = k then (key, value) :: rest
    else (k, v) :: Map.insert key value rest

/-- The call `content.at(key)`: `none` when it throws `std::out_of_range`. -/
def Map.at (key : List Char) : Map → Option (List Char)
  | [] => none
  | (k, v) :: rest => if key = k then some v else Map.at key rest

/-- Keys in strictly increasing order, the invariant of `std::map`. -/
def Map.sorted (m : Map) : Prop :=
  m.Pairwise (fun a b => str_lt a.1 b.1 = true)

/-- Number of entries of the map with the given key. -/
def Map.entries (key : List Char) (m : Map) : Nat :=
  (m.filter (fun e => decide (e.1 = key))).length

/-! ## The constructor `config::config` -/

/-- The class `config`: the file name and the map of {key, value}. -/
structure config where
  confile : List Char
  content : Map
  deriving DecidableEq, Repr

/-- The successive results of `getline(input, line)` until it fails at end of file:
`cur` holds the characters of the current line read so far, in reverse. -/
def getlines_from (cur : List Char) : List Char → List (List Char)
  | [] => if cur = [] then [] else [cur.reverse]
  | c :: cs =>
    if c = '\n' then cur.reverse :: getlines_from [] cs
    else getlines_from (c :: cur) cs

/-- The lines `while (getline(input, line))` iterates over. -/
def getlines (input : List Char) : List (List Char) :=
  getlines_from [] input

/-- The body of the read loop (lines 136-184) on one line: `none` for `continue`,
`some (key, value)` for the pair handed to `content[key] = value`. -/
def parse_line (line : List Char) : Except Exn (Option (List Char × List Char)) :=
  if line.length ≤ 2 then .ok none
  else
    match find ';' line with
    | none => .error .incompatible_format
    | some semi =>
      let line := remove_spaces (line.take semi)
      if find '=' line ≠ find_last_of '=' line then .error .incompatible_format
      else
        match find '=' line with
        | none => .error .incompatible_format
        | some eq =>
          if eq = 0 then .error .key_notfound
          else if eq = line.length - 1 then .error .value_notfound
          else .ok (some (substr line 0 eq, substr line (eq + 1) line.length))

/-- The read loop of lines 134-187 over the lines of the file, from the map `content`. -/
def read_loop : List (List Char) → Map → Except Exn Map
  | [], content => .ok content
  | line :: rest, content =>
    match parse_line line with
    | .error e => .error e
    | .ok none => read_loop rest content
    | .ok (some (key, value)) => read_loop rest (Map.insert key value content)

/-- The constructor `config::config(_file_name)`, here `config.ctor`; `input` is the
content of the file of that name, `none` when it cannot be opened. A stream that ends
by end of file has `eof()` set, so the read-failure branch of lines 190-195 needs an
I/O error, which a file given by its content does not have. -/
def config.ctor (_file_name : List Char) (input : Option (List Char)) : Except Exn config :=
  match input with
  | none => .error .file_notfound
  | some text =>
    match read_loop (getlines text) [] with
    | .error e => .error e
    | .ok content => .ok { confile := _file_name, content := content }

/-! ## The accessors -/

/-- The loop of `is_valid_number` from index `i` with `dot` decimal points seen. -/
def is_valid_number_loop (i dot : Nat) : List Char → Bool
  | [] => true
  | c :: cs =>
    if c = '.' then
      if dot + 1 > 1 then false else is_valid_number_loop (i + 1) (dot + 1) cs
    else if i = 0 ∧ c = '-' then is_valid_number_loop (i + 1) dot cs
    else if isdigit c = false then false
    else is_valid_number_loop (i + 1) dot cs

/-- The method `config::is_valid_number`. -/
def is_valid_number (value_st : List Char) : Bool :=
  is_valid_number_loop 0 0 value_st

/-- Value of a string of decimal digits. -/
def digits_value (ds : List Char) : Nat :=
  ds.foldl (fun n d => 10 * n + (d.toNat - '0'.toNat)) 0

/-- Numbers of type `double`: the finite values, each given by the rational it equals
(the sign of a zero is not kept). -/
abbrev Double := ℚ

/-- Decimal values of this magnitude or more round above the largest finite `double`,
`2^1024 - 2^971`. -/
def double_overflow : ℚ := 2 ^ 1024 - 2 ^ 970

/-- The smallest positive normal `double`, `2^(-1022)`. -/
def double_min_normal : ℚ := 1 / 2 ^ 1022

/-- Nearest integer, a tie going to the even one. -/
def round_half_even (x : ℚ) : ℤ :=
  let f := ⌊x⌋
  let r := x - f
  if r < 1 / 2 then f
  else if 1 / 2 < r then f + 1
  else if f % 2 = 0 then f
  else f + 1

/-- The `double` nearest to `q` (IEEE 754 binary64, round to nearest, ties to even),
for `q` of magnitude below `double_overflow`: 53 significant bits, the exponent of the
last bit not below `-1074`. -/
def round_to_double (q : ℚ) : Double :=
  if q = 0 then 0
  else
    let e : ℤ := max (Int.log 2 |q|) (-1022) - 52
    (round_half_even (q / (2 : ℚ) ^ e) : ℚ) * (2 : ℚ) ^ e

/-- The digits before the point and the digits behind it, as `strtod` reads them from
the start of `body`: digits, then an optional point and digits. -/
def split_decimal (body : List Char) : List Char × List Char :=
  (body.takeWhile isdigit,
    match body.dropWhile isdigit with
    | '.' :: t => t.takeWhile isdigit
    | _ => [])

/-- The decimal number `strtod` reads from the start of `s`, `none` when it finds no
digit and performs no conversion. Covers the strings `get_value` passes on, which
`is_valid_number` has restricted to digits, `'.'` and a leading `'-'`. -/
def strtod_decimal (s : List Char) : Option ℚ :=
  let neg := s.head? = some '-'
  let body := if neg then s.drop 1 else s
  let (ip, fp) := split_decimal body
  if ip = [] ∧ fp = [] then none
  else
    let v : ℚ := (digits_value ip : ℚ) + (digits_value fp : ℚ) / (10 : ℚ) ^ fp.length
    some (if neg then -v else v)

/-- The call `std::stod(s)`: without any digit no conversion is performed and
`std::invalid_argument` is thrown; a value too large for a `double` gives
`std::out_of_range`, and so does (as in glibc, the standard leaves it open) one below
the normal range that is not a `double` itself. Otherwise the result is the decimal
value read, rounded to `double`. -/
def stod (s : List Char) : Except Exn Double :=
  match strtod_decimal s with
  | none => .error .std_invalid_argument
  | some v =>
    if double_overflow ≤ |v| then .error .std_out_of_range
    else if |v| < double_min_normal ∧ round_to_double v ≠ v then .error .std_out_of_range
    else .ok (round_to_double v)

/-- The method `config::get_value`. -/
def config.get_value (c : config) (key : List Char) (default_v : Double) :
    Except Exn Double :=
  match Map.at key c.content with
  | none => .ok default_v
  | some value_st =>
    if is_valid_number value_st then stod value_st
    else .error .num_invalid

/-- The method `config::get_value_string`. -/
def config.get_value_string (c : config) (key : List Char) : Except Exn (List Char) :=
  match Map.at key c.content with
  | none => .error .key_notfound
  | some value_st => .ok value_st

/-- The method `config::print_content`: the key/value pairs written after the header,
in iteration order of the map. -/
def config.print_content (c : config) : List (List Char × List Char) :=
  c.content

/-! ## Vocabulary of the specification -/

/-- A line `K = V; comment`: before its first `';'`, once the spaces are removed, a
non-empty key, one `'='` and a non-empty value. -/
def well_formed (line key value : List Char) : Prop :=
  ∃ body comment, line = body ++ ';' :: comment ∧ ';' ∉ body ∧
    remove_spaces body = key ++ '=' :: value ∧
    key ≠ [] ∧ value ≠ [] ∧ '=' ∉ key ∧ '=' ∉ value

/-- The C function `isspace`: space, `\t`, `\n`, `\v`, `\f`, `\r`. -/
def isspace (c : Char) : Bool :=
  c == ' ' || (decide (9 ≤ c.toNat) && decide (c.toNat ≤ 13))

/-- A line that is empty or consists only of whitespace. -/
def blank (line : List Char) : Prop :=
  ∀ c ∈ line, isspace c = true

/-- The numeric grammar in the words of the specification: every character is a digit,
except that at most one `'.'` may occur anywhere and a `'-'` only at position 0. -/
def numeric_grammar (s : List Char) : Prop :=
  s.count '.' ≤ 1 ∧
    ∀ i c, s[i]? = some c → isdigit c = true ∨ c = '.' ∨ (c = '-' ∧ i = 0)

/-- A violation of the numeric grammar: a character other than a digit, `'.'` and
`'-'`, or more than one `'.'`, or a `'-'` at a position other than 0. -/
def violates_numeric_grammar (s : List Char) : Prop :=
  (∃ c ∈ s, isdigit c = false ∧ c ≠ '.' ∧ c ≠ '-') ∨ 1 < s.count '.' ∨
    ∃ i, 0 < i ∧ s[i]? = some '-'

/-- The number a string of the numeric grammar denotes in decimal: its digits read as
one natural number, divided by ten for each digit behind the point, and negated under
a leading `'-'`. -/
def decimal_value (s : List Char) : ℚ :=
  let digits := s.filter isdigit
  let behind := (s.dropWhile (fun c => c != '.')).filter isdigit
  let v : ℚ := (digits_value digits : ℚ) / (10 : ℚ) ^ behind.length
  if s.head? = some '-' then -v else v

/-- The numbers a `double` holds up to rounding: of magnitude below the overflow
threshold and, unless zero, not below the normal range. -/
def in_double_range (q : ℚ) : Prop :=
  |q| < double_overflow ∧ (q = 0 ∨ double_min_normal ≤ |q|)

/-- The text of a line before its first `';'`, with all spaces removed. -/
def text_before_semicolon (line : List Char) : List Char :=
  remove_spaces (line.takeWhile (fun c => c != ';'))

/-- A line that is processed and is not well-formed: more than two characters, and not
of the shape `K = V; comment`. -/
def malformed (line : List Char) : Prop :=
  2 < line.length ∧ ¬ ∃ key value, well_formed line key value

/-- The text of a stored key or value: non-empty, without space, `';'` and `'='`. -/
def stored_text (s : List Char) : Prop :=
  s ≠ [] ∧ ' ' ∉ s ∧ ';' ∉ s ∧ '=' ∉ s

/-- The line `key=value;`. -/
def entry_line (key value : List Char) : List Char :=
  key ++ '=' :: (value ++ [';'])

/-- The file with one line `key=value;` per entry, each with its line terminator. -/
def file_of_entries : List (List Char × List Char) → List Char
  | [] => []
  | (key, value) :: rest => entry_line key value ++ '\n' :: file_of_entries rest

/-- The line without its spaces and tabs. -/
def remove_spaces_and_tabs (s : List Char) : List Char :=
  s.filter (fun c => !(c == ' ' || c == '\t'))

/-! ## Lemmas on the string operations -/

theorem find_eq_none {c : Char} {s : List Char} (h : c ∉ s) : find c s = none := by
  induction s with
  | nil => rfl
  | cons x xs ih =>
    have hx : x ≠ c := fun e => h (e ▸ List.mem_cons_self _ _)
    have hxs : c ∉ xs := fun m => h (List.mem_cons_of_mem _ m)
    simp [find, hx, ih hxs]

theorem find_append_of_not_mem {c : Char} (s t : List Char) (h : c ∉ s) :
    find c (s ++ c :: t) = some s.length := by
  induction s with
  | nil => simp [find]
  | cons x xs ih =>
    have hx : x ≠ c := fun e => h (e ▸ List.mem_cons_self _ _)
    have hxs : c ∉ xs := fun m => h (List.mem_cons_of_mem _ m)
    simp [find, hx, ih hxs]

theorem find_last_of_eq_none {c : Char} {s : List Char} (h : c ∉ s) :
    find_last_of c s = none := by
  induction s with
  | nil => rfl
  | cons x xs ih =>
    have hx : x ≠ c := fun e => h (e ▸ List.mem_cons_self _ _)
    have hxs : c ∉ xs := fun m => h (List.mem_cons_of_mem _ m)
    simp [find_last_of, hx, ih hxs]

theorem find_last_of_append_of_not_mem {c : Char} (s t : List Char) (h : c ∉ t) :
    find_last_of c (s ++ c :: t) = some s.length := by
  induction s with
  | nil => simp [find_last_of, find_last_of_eq_none h]
  | cons x xs ih => simp [find_last_of, ih]

theorem mem_of_mem_remove_spaces {c : Char} {s : List Char} (h : c ∈ remove_spaces s) :
    c ∈ s :=
  (List.mem_filter.mp h).1

theorem mem_remove_spaces {c : Char} {s : List Char} (h : c ∈ s) (hc : c ≠ ' ') :
    c ∈ remove_spaces s :=
  List.mem_filter.mpr ⟨h, by simpa using hc⟩

theorem substr_key (key value : List Char) :
    substr (key ++ '=' :: value) 0 key.length = key := by
  simp [substr]

theorem substr_value (key value : List Char) :
    substr (key ++ '=' :: value) (key.length + 1) (key ++ '=' :: value).length = value := by
  have h : List.drop (key.length + 1) (key ++ '=' :: value) = value := by
    rw [List.drop_append_eq_append_drop]
    simp
  simp only [substr, h]
  apply List.take_of_length_le
  simp
  omega

/-- A well-formed line is processed into its key and its value. -/
theorem parse_line_well_formed {line key value : List Char}
    (h : well_formed line key value) : parse_line line = .ok (some (key, value)) := by
  obtain ⟨body, comment, rfl, hsemi, hbody, hk, hv, hke, hve⟩ := h
  have hlen : (key ++ '=' :: value).length ≤ body.length :=
    hbody ▸ List.length_filter_le _ _
  have hk1 : 1 ≤ key.length := List.length_pos.mpr hk
  have hv1 : 1 ≤ value.length := List.length_pos.mpr hv
  have hlen2 : ¬ (body ++ ';' :: comment).length ≤ 2 := by
    simp only [List.length_append, List.length_cons] at hlen ⊢
    omega
  have hne : key.length ≠ 0 := by omega
  have hne2 : ¬ key.length = (key ++ '=' :: value).length - 1 := by
    simp only [List.length_append, List.length_cons]
    omega
  simp only [parse_line, hlen2, if_false, find_append_of_not_mem body comment hsemi,
    List.take_left, hbody, find_append_of_not_mem key value hke,
    find_last_of_append_of_not_mem key value hve, ne_eq, not_true_eq_false, hne, hne2,
    substr_key, substr_value]

theorem find_of_mem {c : Char} {s : List Char} (h : c ∈ s) :
    find c s = some (s.takeWhile (fun x => x != c)).length := by
  induction s with
  | nil => simp at h
  | cons x xs ih =>
    by_cases hx : x = c
    · simp [find, hx]
    · have hxs : c ∈ xs := by
        rcases List.mem_cons.mp h with h | h
        · exact absurd h.symm hx
        · exact h
      simp [find, hx, ih hxs]

theorem take_length_takeWhile (p : Char → Bool) (s : List Char) :
    s.take (s.takeWhile p).length = s.takeWhile p := by
  have h := List.take_left (List.takeWhile p s) (List.dropWhile p s)
  rwa [List.takeWhile_append_dropWhile] at h

theorem not_mem_of_find_last_of_eq_none {c : Char} {s : List Char}
    (h : find_last_of c s = none) : c ∉ s := by
  induction s with
  | nil => simp
  | cons x xs ih =>
    simp only [find_last_of] at h
    cases hl : find_last_of c xs with
    | some i => simp [hl] at h
    | none =>
      simp only [hl] at h
      have hx : x ≠ c := by
        intro e
        simp [e] at h
      simp only [List.mem_cons, not_or]
      exact ⟨fun e => hx e.symm, ih hl⟩

/-- When the first and the last occurrence coincide, there is at most one. -/
theorem count_le_one_of_find_eq {c : Char} {s : List Char}
    (h : find c s = find_last_of c s) : s.count c ≤ 1 := by
  induction s with
  | nil => simp
  | cons x xs ih =>
    simp only [find, find_last_of] at h
    by_cases hx : x = c
    · subst hx
      cases hl : find_last_of x xs with
      | some i => simp [hl] at h
      | none =>
        have := List.count_eq_zero.mpr (not_mem_of_find_last_of_eq_none hl)
        rw [List.count_cons_self, this]
    · rw [List.count_cons_of_ne (fun e => hx e.symm)]
      apply ih
      cases hl : find_last_of c xs with
      | some i =>
        simp only [hx, ↓reduceIte, hl] at h
        cases hf : find c xs with
        | none => simp [hf] at h
        | some j =>
          simp only [hf, Option.map_some', Option.some.injEq, add_left_inj] at h
          rw [h]
      | none =>
        simp only [hx, ↓reduceIte, hl] at h
        cases hf : find c xs with
        | none => rfl
        | some j => simp [hf] at h

/-- The first occurrence splits the string, and lies behind none. -/
theorem find_eq_some {c : Char} {s : List Char} {i : Nat} (h : find c s = some i) :
    i < s.length ∧ s = s.take i ++ c :: s.drop (i + 1) ∧ c ∉ s.take i := by
  induction s generalizing i with
  | nil => simp [find] at h
  | cons x xs ih =>
    by_cases hx : x = c
    · simp only [find, hx, ↓reduceIte, Option.some.injEq] at h
      subst h
      simp [hx]
    · simp only [find, hx, ↓reduceIte] at h
      cases hf : find c xs with
      | none => simp [hf] at h
      | some j =>
        simp only [hf, Option.map_some', Option.some.injEq] at h
        subst h
        obtain ⟨h1, h2, h3⟩ := ih hf
        refine ⟨by simp only [List.length_cons]; omega, ?_, ?_⟩
        · simp only [List.take_succ_cons, List.drop_succ_cons, List.cons_append]
          rw [← h2]
        · simp only [List.take_succ_cons, List.mem_cons, not_or]
          exact ⟨fun e => hx e.symm, h3⟩

/-- Behind the last occurrence there is none. -/
theorem not_mem_drop_of_find_last_of {c : Char} {s : List Char} {i : Nat}
    (h : find_last_of c s = some i) : c ∉ s.drop (i + 1) := by
  induction s generalizing i with
  | nil => simp [find_last_of] at h
  | cons x xs ih =>
    simp only [find_last_of] at h
    cases hl : find_last_of c xs with
    | some j =>
      simp only [hl, Option.some.injEq] at h
      subst h
      simpa using ih hl
    | none =>
      simp only [hl] at h
      by_cases hx : x = c
      · simp only [hx, ↓reduceIte, Option.some.injEq] at h
        subst h
        simpa using not_mem_of_find_last_of_eq_none hl
      · simp [hx] at h

/-- A line of more than two characters with a `';'` is processed on the text before
its first `';'`, spaces removed. -/
theorem parse_line_processed {line : List Char} (hlen : 2 < line.length)
    (hsemi : ';' ∈ line) :
    parse_line line =
      if find '=' (text_before_semicolon line) ≠ find_last_of '=' (text_before_semicolon line)
      then .error .incompatible_format
      else
        match find '=' (text_before_semicolon line) with
        | none => .error .incompatible_format
        | some eq =>
          if eq = 0 then .error .key_notfound
          else if eq = (text_before_semicolon line).length - 1 then .error .value_notfound
          else .ok (some (substr (text_before_semicolon line) 0 eq,
            substr (text_before_semicolon line) (eq + 1) (text_before_semicolon line).length)) := by
  have h2 : ¬ line.length ≤ 2 := by omega
  simp only [parse_line, h2, ↓reduceIte, find_of_mem hsemi, take_length_takeWhile,
    text_before_semicolon]

/-- Only a well-formed line is processed into a key and a value. -/
theorem well_formed_of_parse_line {line key value : List Char}
    (h : parse_line line = .ok (some (key, value))) : well_formed line key value := by
  by_cases hlen : line.length ≤ 2
  · simp [parse_line, hlen] at h
  · by_cases hsemi : ';' ∈ line
    · rw [parse_line_processed (by omega) hsemi] at h
      have hs := find_eq_some (find_of_mem hsemi)
      rw [take_length_takeWhile] at hs
      obtain ⟨_, hsplit, hnot⟩ := hs
      by_cases hne : find '=' (text_before_semicolon line) ≠
          find_last_of '=' (text_before_semicolon line)
      · simp [hne] at h
      · have heq : find '=' (text_before_semicolon line) =
            find_last_of '=' (text_before_semicolon line) := not_not.mp hne
        rw [if_neg hne] at h
        cases hf : find '=' (text_before_semicolon line) with
        | none => simp [hf] at h
        | some e =>
          simp only [hf] at h
          by_cases h0 : e = 0
          · simp [h0] at h
          · by_cases h1 : e = (text_before_semicolon line).length - 1
            · rw [if_neg h0, if_pos h1] at h
              cases h
            · rw [if_neg h0, if_neg h1] at h
              simp only [Except.ok.injEq, Option.some.injEq, Prod.mk.injEq, substr,
                List.drop_zero] at h
              obtain ⟨hk, hv⟩ := h
              obtain ⟨hlt, hsp, hnk⟩ := find_eq_some hf
              have hnv := not_mem_drop_of_find_last_of (heq ▸ hf)
              have hv' : List.drop (e + 1) (text_before_semicolon line) = value := by
                rw [← hv]
                exact (List.take_of_length_le (by simp)).symm
              rw [hk] at hsp hnk
              rw [hv'] at hsp hnv
              refine ⟨_, _, hsplit, hnot, hsp, ?_, ?_, hnk, hnv⟩
              · intro e0
                rw [e0] at hk
                have := congrArg List.length hk
                simp only [List.length_take, List.length_nil] at this
                omega
              · intro e0
                rw [e0] at hv'
                have := congrArg List.length hv'
                simp only [List.length_drop, List.length_nil] at this
                omega
    · have h2 : ¬ line.length ≤ 2 := hlen
      simp [parse_line, h2, find_eq_none hsemi] at h

/-- A line is processed into the key and the value exactly when it is well-formed. -/
theorem parse_line_eq_some_iff {line key value : List Char} :
    parse_line line = .ok (some (key, value)) ↔ well_formed line key value :=
  ⟨well_formed_of_parse_line, parse_line_well_formed⟩

/-- A line of more than two characters without `';'` is rejected. -/
theorem parse_line_no_semicolon {line : List Char} (hlen : 2 < line.length)
    (hsemi : ';' ∉ line) : parse_line line = .error .incompatible_format := by
  have h2 : ¬ line.length ≤ 2 := by omega
  simp only [parse_line, h2, ↓reduceIte, find_eq_none hsemi]

/-- A line of at most two characters is skipped. -/
theorem parse_line_short {line : List Char} (hlen : line.length ≤ 2) :
    parse_line line = .ok none := by
  simp only [parse_line, hlen, ↓reduceIte]

theorem not_semicolon_of_blank {line : List Char} (h : blank line) : ';' ∉ line :=
  fun hm => absurd (h _ hm) (by decide)

/-! ## Lemmas on reading lines -/

theorem getlines_from_last (cur l : List Char) (h : '\n' ∉ l) (hne : cur ++ l ≠ []) :
    getlines_from cur l = [cur.reverse ++ l] := by
  induction l generalizing cur with
  | nil =>
    have : cur ≠ [] := by simpa using hne
    simp [getlines_from, this]
  | cons x xs ih =>
    have hx : x ≠ '\n' := fun e => h (e ▸ List.mem_cons_self _ _)
    have hxs : '\n' ∉ xs := fun m => h (List.mem_cons_of_mem _ m)
    simp [getlines_from, hx, ih (x :: cur) hxs]

theorem getlines_from_line (cur l rest : List Char) (h : '\n' ∉ l) :
    getlines_from cur (l ++ '\n' :: rest) = (cur.reverse ++ l) :: getlines_from [] rest := by
  induction l generalizing cur with
  | nil => simp [getlines_from]
  | cons x xs ih =>
    have hx : x ≠ '\n' := fun e => h (e ▸ List.mem_cons_self _ _)
    have hxs : '\n' ∉ xs := fun m => h (List.mem_cons_of_mem _ m)
    simp [getlines_from, hx, ih (x :: cur) hxs]

/-- A file holding one non-empty line, with or without its line terminator. -/
theorem getlines_single (l : List Char) (h : '\n' ∉ l) (hne : l ≠ []) (nl : Bool) :
    getlines (l ++ if nl then ['\n'] else []) = [l] := by
  cases nl with
  | false => simpa [getlines] using getlines_from_last [] l h (by simpa using hne)
  | true => simp [getlines, getlines_from_line [] l [] h, getlines_from]

/-! ## Lemmas on the map -/

theorem Map.at_insert_self (key value : List Char) (m : Map) :
    Map.at key (Map.insert key value m) = some value := by
  induction m with
  | nil => simp [Map.insert, Map.at]
  | cons e rest ih =>
    obtain ⟨k, v⟩ := e
    by_cases h1 : str_lt key k = true
    · simp [Map.insert, Map.at, h1]
    · by_cases h2 : key = k
      · subst h2
        simp [Map.insert, Map.at, h1]
      · simp [Map.insert, Map.at, h1, h2, ih]

theorem Map.at_insert_of_ne {key k' : List Char} (value : List Char) (m : Map)
    (h : k' ≠ key) : Map.at k' (Map.insert key value m) = Map.at k' m := by
  induction m with
  | nil => simp [Map.insert, Map.at, h]
  | cons e rest ih =>
    obtain ⟨k, v⟩ := e
    by_cases h1 : str_lt key k = true
    · simp [Map.insert, Map.at, h1, h]
    · by_cases h2 : key = k
      · subst h2
        simp [Map.insert, Map.at, h1, h]
      · simp [Map.insert, Map.at, h1, h2, ih]

theorem char_eq_of_toNat_eq {a b : Char} (h : a.toNat = b.toNat) : a = b := by
  rw [← Char.ofNat_toNat a, ← Char.ofNat_toNat b, h]

theorem str_lt_irrefl (a : List Char) : str_lt a a = false := by
  induction a with
  | nil => rfl
  | cons x xs ih => simp [str_lt, ih]

theorem str_lt_trans {a b c : List Char} (hab : str_lt a b = true)
    (hbc : str_lt b c = true) : str_lt a c = true := by
  induction a generalizing b c with
  | nil =>
    cases c with
    | nil => cases b <;> simp [str_lt] at hab hbc
    | cons z zs => rfl
  | cons x xs ih =>
    cases b with
    | nil => simp [str_lt] at hab
    | cons y ys =>
      cases c with
      | nil => simp [str_lt] at hbc
      | cons z zs =>
        simp only [str_lt] at hab hbc ⊢
        by_cases hxy : x.toNat < y.toNat
        · by_cases hyz : y.toNat < z.toNat
          · have : x.toNat < z.toNat := by omega
            simp [this]
          · by_cases hzy : z.toNat < y.toNat
            · simp [hyz, hzy] at hbc
            · have : x.toNat < z.toNat := by omega
              simp [this]
        · by_cases hyx : y.toNat < x.toNat
          · simp [hxy, hyx] at hab
          · simp only [hxy, hyx, if_false] at hab
            by_cases hyz : y.toNat < z.toNat
            · have : x.toNat < z.toNat := by omega
              simp [this]
            · by_cases hzy : z.toNat < y.toNat
              · simp [hyz, hzy] at hbc
              · simp only [hyz, hzy, if_false] at hbc
                have h1 : ¬ x.toNat < z.toNat := by omega
                have h2 : ¬ z.toNat < x.toNat := by omega
                simp only [h1, h2, if_false]
                exact ih hab hbc

theorem str_lt_total {a b : List Char} (hab : str_lt a b = false) (hne : a ≠ b) :
    str_lt b a = true := by
  induction a generalizing b with
  | nil =>
    cases b with
    | nil => exact absurd rfl hne
    | cons y ys => simp [str_lt] at hab
  | cons x xs ih =>
    cases b with
    | nil => rfl
    | cons y ys =>
      simp only [str_lt] at hab ⊢
      by_cases hxy : x.toNat < y.toNat
      · simp [hxy] at hab
      · by_cases hyx : y.toNat < x.toNat
        · simp [hyx]
        · simp only [hxy, hyx, if_false] at hab ⊢
          have hx : x = y := char_eq_of_toNat_eq (by omega)
          subst hx
          exact ih hab (fun e => hne (by rw [e]))

theorem Map.mem_insert {e : List Char × List Char} {key value : List Char} {m : Map} :
    e ∈ Map.insert key value m → e = (key, value) ∨ e ∈ m := by
  induction m with
  | nil =>
    intro h
    simpa [Map.insert] using h
  | cons e' rest ih =>
    obtain ⟨k, v⟩ := e'
    intro h
    by_cases h1 : str_lt key k = true
    · simpa [Map.insert, h1] using h
    · by_cases h2 : key = k
      · subst h2
        simp only [Map.insert, h1, Bool.false_eq_true, ↓reduceIte, List.mem_cons] at h ⊢
        rcases h with h3 | h3
        · exact Or.inl h3
        · exact Or.inr (Or.inr h3)
      · simp only [Map.insert, h1, h2, Bool.false_eq_true, ↓reduceIte, List.mem_cons] at h ⊢
        rcases h with h3 | h3
        · exact Or.inr (Or.inl h3)
        · rcases ih h3 with h4 | h4
          · exact Or.inl h4
          · exact Or.inr (Or.inr h4)

/-- The assignment `content[key] = value` keeps the keys strictly increasing. -/
theorem Map.sorted_insert (key value : List Char) {m : Map} (hm : Map.sorted m) :
    Map.sorted (Map.insert key value m) := by
  induction m with
  | nil => simp [Map.insert, Map.sorted]
  | cons e' rest ih =>
    obtain ⟨k, v⟩ := e'
    have hm' := List.pairwise_cons.mp hm
    by_cases h1 : str_lt key k = true
    · simp only [Map.insert, h1, Bool.false_eq_true, ↓reduceIte]
      refine List.pairwise_cons.mpr ⟨?_, hm⟩
      intro e he
      rcases List.mem_cons.mp he with he | he
      · rw [he]; exact h1
      · exact str_lt_trans h1 (hm'.1 e he)
    · by_cases h2 : key = k
      · subst h2
        simp only [Map.insert, h1, Bool.false_eq_true, ↓reduceIte]
        exact List.pairwise_cons.mpr ⟨fun e he => hm'.1 e he, hm'.2⟩
      · simp only [Map.insert, h1, h2, Bool.false_eq_true, ↓reduceIte]
        refine List.pairwise_cons.mpr ⟨?_, ih hm'.2⟩
        intro e he
        rcases Map.mem_insert he with he | he
        · rw [he]
          exact str_lt_total (by simpa using h1) h2
        · exact hm'.1 e he

theorem Map.entries_eq_zero {key : List Char} {m : Map}
    (h : ∀ e ∈ m, e.1 ≠ key) : Map.entries key m = 0 := by
  simp only [Map.entries, List.length_eq_zero, List.filter_eq_nil_iff]
  intro e he
  simpa using h e he

/-- After `content[key] = value` the map holds exactly one entry for `key`. -/
theorem Map.entries_insert_self (key value : List Char) {m : Map} (hm : Map.sorted m) :
    Map.entries key (Map.insert key value m) = 1 := by
  induction m with
  | nil => simp [Map.insert, Map.entries]
  | cons e' rest ih =>
    obtain ⟨k, v⟩ := e'
    have hm' := List.pairwise_cons.mp hm
    have hrest : ∀ k', str_lt k' k = true ∨ k' = k → ∀ e ∈ rest, e.1 ≠ k' := by
      intro k' hk' e he heq
      have h1 := hm'.1 e he
      rw [heq] at h1
      rcases hk' with hk' | hk'
      · have := str_lt_trans hk' h1
        rw [str_lt_irrefl] at this
        exact Bool.false_ne_true this
      · rw [hk', str_lt_irrefl] at h1
        exact Bool.false_ne_true h1
    by_cases h1 : str_lt key k = true
    · have hk : k ≠ key := by
        intro e
        rw [e, str_lt_irrefl] at h1
        exact Bool.false_ne_true h1
      have h0 := Map.entries_eq_zero (hrest key (Or.inl h1))
      simp only [Map.entries] at h0
      simp [Map.insert, h1, Map.entries, hk, h0]
    · by_cases h2 : key = k
      · have h0 := Map.entries_eq_zero (hrest key (Or.inr h2))
        subst h2
        simp only [Map.entries] at h0
        simp [Map.insert, h1, Map.entries, h0]
      · have hk : k ≠ key := fun e => h2 e.symm
        have := ih hm'.2
        simp only [Map.entries] at this
        simp [Map.insert, h1, h2, Map.entries, hk, this]

theorem Map.entries_insert_of_ne {key k' : List Char} (value : List Char) (m : Map)
    (h : k' ≠ key) : Map.entries k' (Map.insert key value m) = Map.entries k' m := by
  have hk : key ≠ k' := fun e => h e.symm
  induction m with
  | nil => simp [Map.insert, Map.entries, hk]
  | cons e rest ih =>
    obtain ⟨k, v⟩ := e
    by_cases h1 : str_lt key k = true
    · simp [Map.insert, Map.entries, h1, hk]
    · by_cases h2 : key = k
      · subst h2
        simp [Map.insert, Map.entries, h1, hk]
      · simp only [Map.entries] at ih
        by_cases h3 : k = k'
        · subst h3
          simp [Map.insert, Map.entries, h1, h2, ih]
        · simp [Map.insert, Map.entries, h1, h2, h3, ih]

theorem Map.at_eq_none_iff (key : List Char) (m : Map) :
    Map.at key m = none ↔ ∀ v, (key, v) ∉ m := by
  induction m with
  | nil => simp [Map.at]
  | cons e rest ih =>
    obtain ⟨k, v⟩ := e
    by_cases h : key = k
    · subst h
      simp only [Map.at, ↓reduceIte, List.mem_cons, not_or]
      constructor
      · intro h
        cases h
      · intro h
        exact absurd rfl (h v).1
    · simp only [Map.at, h, ↓reduceIte, ih, List.mem_cons, Prod.mk.injEq, false_and, false_or]

/-- In a map with increasing keys, `at` returns the value of the entry of the key. -/
theorem Map.at_eq_some_of_mem {key value : List Char} {m : Map} (hm : Map.sorted m)
    (h : (key, value) ∈ m) : Map.at key m = some value := by
  induction m with
  | nil => simp at h
  | cons e rest ih =>
    obtain ⟨k, v⟩ := e
    have hm' := List.pairwise_cons.mp hm
    rcases List.mem_cons.mp h with h1 | h1
    · simp only [Prod.mk.injEq] at h1
      simp [Map.at, h1.1, h1.2]
    · have hk : key ≠ k := by
        intro e
        have := hm'.1 _ h1
        simp only [e, str_lt_irrefl] at this
        exact Bool.false_ne_true this
      simp only [Map.at, hk, ↓reduceIte]
      exact ih hm'.2 h1

/-! ## Lemmas on the read loop -/

theorem read_loop_append (pre post : List (List Char)) (m : Map) :
    read_loop (pre ++ post) m =
      match read_loop pre m with
      | .error e => .error e
      | .ok m' => read_loop post m' := by
  induction pre generalizing m with
  | nil => simp [read_loop]
  | cons l ls ih =>
    simp only [List.cons_append, read_loop]
    cases hp : parse_line l with
    | error e => simp
    | ok r =>
      cases r with
      | none => simpa using ih m
      | some kv => simpa using ih (Map.insert kv.1 kv.2 m)

theorem not_mem_body_of_remove_spaces {c : Char} {body key value : List Char}
    (hbody : remove_spaces body = key ++ '=' :: value) (hc : c ≠ ' ') (hce : c ≠ '=')
    (hk : c ∉ key) (hv : c ∉ value) : c ∉ body := by
  intro hmem
  have h := mem_remove_spaces hmem hc
  rw [hbody] at h
  simp only [List.mem_append, List.mem_cons] at h
  rcases h with h | h | h
  · exact hk h
  · exact hce h
  · exact hv h

/-- The read loop keeps the keys of the map strictly increasing. -/
theorem read_loop_sorted (ls : List (List Char)) {m m' : Map} (hm : Map.sorted m)
    (h : read_loop ls m = .ok m') : Map.sorted m' := by
  induction ls generalizing m with
  | nil =>
    simp only [read_loop, Except.ok.injEq] at h
    exact h ▸ hm
  | cons l ls ih =>
    simp only [read_loop] at h
    cases hp : parse_line l with
    | error e => simp [hp] at h
    | ok r =>
      cases r with
      | none =>
        simp only [hp] at h
        exact ih hm h
      | some kv =>
        simp only [hp] at h
        exact ih (Map.sorted_insert kv.1 kv.2 hm) h

/-- Lines that do not assign `key` leave its entry as it is. -/
theorem read_loop_other_keys (ls : List (List Char)) {m m' : Map} (key : List Char)
    (hls : ∀ l ∈ ls, ∀ v, parse_line l ≠ .ok (some (key, v)))
    (h : read_loop ls m = .ok m') :
    Map.at key m' = Map.at key m ∧ Map.entries key m' = Map.entries key m := by
  induction ls generalizing m with
  | nil =>
    simp only [read_loop, Except.ok.injEq] at h
    rw [h]
    exact ⟨rfl, rfl⟩
  | cons l ls ih =>
    have hls' : ∀ l' ∈ ls, ∀ v, parse_line l' ≠ .ok (some (key, v)) :=
      fun l' hl' => hls l' (List.mem_cons_of_mem _ hl')
    simp only [read_loop] at h
    cases hp : parse_line l with
    | error e => simp [hp] at h
    | ok r =>
      cases r with
      | none =>
        simp only [hp] at h
        exact ih hls' h
      | some kv =>
        obtain ⟨k, v⟩ := kv
        simp only [hp] at h
        have hk : key ≠ k := by
          intro e
          exact hls l (List.mem_cons_self _ _) v (by rw [hp, e])
        have := ih hls' h
        rw [Map.at_insert_of_ne v m hk, Map.entries_insert_of_ne v m hk] at this
        exact this

/-- A loaded store keeps its keys strictly increasing, hence unique. -/
theorem ctor_sorted {name : List Char} {input : Option (List Char)} {c : config}
    (h : config.ctor name input = .ok c) : Map.sorted c.content := by
  cases input with
  | none => simp [config.ctor] at h
  | some text =>
    simp only [config.ctor] at h
    cases hr : read_loop (getlines text) [] with
    | error e => simp [hr] at h
    | ok m =>
      simp only [hr, Except.ok.injEq] at h
      subst h
      exact read_loop_sorted _ List.Pairwise.nil hr

/-! ## Lemmas on the numeric grammar -/

theorem forall_getElem?_cons {x : Char} {xs : List Char} {P : Nat → Char → Prop} :
    (∀ j c, (x :: xs)[j]? = some c → P j c) ↔
      P 0 x ∧ ∀ j c, xs[j]? = some c → P (j + 1) c := by
  constructor
  · intro h
    exact ⟨h 0 x (by simp), fun j c hj => h (j + 1) c (by simpa using hj)⟩
  · rintro ⟨h0, hs⟩ j c hj
    cases j with
    | zero =>
      simp only [List.getElem?_cons_zero, Option.some.injEq] at hj
      exact hj ▸ h0
    | succ j => exact hs j c (by simpa using hj)

/-- The loop of `is_valid_number`, started at index `i` with `dot` points seen, accepts
exactly the strings within the grammar from there on. -/
theorem is_valid_number_loop_iff (i dot : Nat) (s : List Char) (hdot : dot ≤ 1) :
    is_valid_number_loop i dot s = true ↔
      dot + s.count '.' ≤ 1 ∧
        ∀ j c, s[j]? = some c → isdigit c = true ∨ c = '.' ∨ (c = '-' ∧ i + j = 0) := by
  induction s generalizing i dot with
  | nil => simp [is_valid_number_loop, hdot]
  | cons x xs ih =>
    rw [forall_getElem?_cons]
    have hshift : ∀ j, (i + (j + 1) = 0) = (i + 1 + j = 0) :=
      fun j => propext ⟨fun h => by omega, fun h => by omega⟩
    simp only [hshift]
    by_cases hx : x = '.'
    · subst hx
      by_cases hd : dot + 1 > 1
      · simp only [is_valid_number_loop, hd, ↓reduceIte, List.count_cons_self,
          Bool.false_eq_true, false_iff, not_and]
        intro h
        omega
      · rw [is_valid_number_loop]
        simp only [hd, ↓reduceIte, List.count_cons_self, ih (i + 1) (dot + 1) (by omega),
          true_or, or_true, true_and]
        constructor
        · rintro ⟨h1, h2⟩
          exact ⟨by omega, h2⟩
        · rintro ⟨h1, h2⟩
          exact ⟨by omega, h2⟩
    · have hcount : List.count '.' (x :: xs) = List.count '.' xs :=
        List.count_cons_of_ne (fun e => hx e.symm) xs
      rw [hcount]
      by_cases hm : i = 0 ∧ x = '-'
      · have hstep : is_valid_number_loop i dot (x :: xs) = is_valid_number_loop (i + 1) dot xs := by
          rw [is_valid_number_loop]
          simp only [hx, ↓reduceIte]
          rw [if_pos hm]
        rw [hstep, ih (i + 1) dot hdot]
        obtain ⟨hi, hxm⟩ := hm
        constructor
        · rintro ⟨h1, h2⟩
          exact ⟨h1, Or.inr (Or.inr ⟨hxm, by omega⟩), h2⟩
        · rintro ⟨h1, _, h2⟩
          exact ⟨h1, h2⟩
      · by_cases hdig : isdigit x = false
        · have hstep : is_valid_number_loop i dot (x :: xs) = false := by
            rw [is_valid_number_loop]
            simp only [hx, ↓reduceIte]
            rw [if_neg hm, if_pos hdig]
          rw [hstep]
          simp only [Bool.false_eq_true, false_iff]
          rintro ⟨_, h | h | h, _⟩
          · rw [hdig] at h
            exact Bool.false_ne_true h
          · exact hx h
          · exact hm ⟨by omega, h.1⟩
        · have hdig' : isdigit x = true := by simpa using hdig
          have hstep : is_valid_number_loop i dot (x :: xs) =
              is_valid_number_loop (i + 1) dot xs := by
            rw [is_valid_number_loop]
            simp only [hx, ↓reduceIte]
            rw [if_neg hm, if_neg hdig]
          rw [hstep, ih (i + 1) dot hdot]
          simp only [hdig', true_or, true_and]

theorem is_valid_number_iff (s : List Char) :
    is_valid_number s = true ↔ numeric_grammar s := by
  simp [is_valid_number, numeric_grammar, is_valid_number_loop_iff 0 0 s (Nat.zero_le 1)]

theorem not_numeric_grammar_of_violates {s : List Char} (h : violates_numeric_grammar s) :
    ¬ numeric_grammar s := by
  rintro ⟨hcount, hchars⟩
  rcases h with ⟨c, hc, hd, hp, hm⟩ | h | ⟨i, hi, hc⟩
  · obtain ⟨i, hi⟩ := List.mem_iff_getElem?.mp hc
    rcases hchars i c hi with h | h | h
    · rw [hd] at h
      exact Bool.false_ne_true h
    · exact hp h
    · exact hm h.1
  · omega
  · rcases hchars i _ hc with h | h | h
    · exact absurd h (by decide)
    · exact absurd h (by decide)
    · omega

/-! ## Lemmas on the decimal value -/

theorem digits_value_foldl (n : Nat) (ds : List Char) :
    ds.foldl (fun n d => 10 * n + (d.toNat - '0'.toNat)) n =
      n * 10 ^ ds.length + digits_value ds := by
  induction ds generalizing n with
  | nil => simp [digits_value]
  | cons d ds ih =>
    simp only [List.foldl_cons, digits_value, List.length_cons]
    rw [ih, ih (10 * 0 + (d.toNat - '0'.toNat))]
    ring

theorem digits_value_append (a b : List Char) :
    digits_value (a ++ b) = digits_value a * 10 ^ b.length + digits_value b := by
  simp only [digits_value, List.foldl_append]
  exact digits_value_foldl _ b

theorem takeWhile_isdigit_of_all {l : List Char} (h : ∀ c ∈ l, isdigit c = true) :
    l.takeWhile isdigit = l :=
  List.takeWhile_eq_self_iff.mpr h

theorem filter_isdigit_of_all {l : List Char} (h : ∀ c ∈ l, isdigit c = true) :
    l.filter isdigit = l :=
  List.filter_eq_self.mpr h

/-- On digits with at most one point, the digits `strtod` reads before and behind the
point are all the digits, and those behind it are the digits after the first point. -/
theorem split_decimal_spec (body : List Char)
    (hchars : ∀ c ∈ body, isdigit c = true ∨ c = '.') (hcount : body.count '.' ≤ 1) :
    body.filter isdigit = (split_decimal body).1 ++ (split_decimal body).2 ∧
      (body.dropWhile (fun c => c != '.')).filter isdigit = (split_decimal body).2 := by
  induction body with
  | nil => simp [split_decimal]
  | cons x xs ih =>
    have hxs : ∀ c ∈ xs, isdigit c = true ∨ c = '.' :=
      fun c hc => hchars c (List.mem_cons_of_mem _ hc)
    by_cases hx : x = '.'
    · subst hx
      have h0 : List.count '.' xs = 0 := by
        rw [List.count_cons_self] at hcount
        omega
      have hnot : '.' ∉ xs := List.count_eq_zero.mp h0
      have hall : ∀ c ∈ xs, isdigit c = true := by
        intro c hc
        rcases hxs c hc with h | h
        · exact h
        · exact absurd (h ▸ hc) hnot
      have hd : isdigit '.' = false := by decide
      simp [split_decimal, hd, takeWhile_isdigit_of_all hall, filter_isdigit_of_all hall]
    · have hdig : isdigit x = true := by
        rcases hchars x (List.mem_cons_self _ _) with h | h
        · exact h
        · exact absurd h hx
      have hc' : List.count '.' xs ≤ 1 := by
        rw [List.count_cons_of_ne (fun e => hx e.symm)] at hcount
        exact hcount
      obtain ⟨ih1, ih2⟩ := ih hxs hc'
      simp only [split_decimal] at ih1 ih2 ⊢
      simp only [List.filter_cons, hdig, ↓reduceIte, List.takeWhile_cons, List.dropWhile_cons,
        bne_iff_ne, ne_eq, hx, not_false_eq_true, decide_True, List.cons_append]
      exact ⟨by rw [ih1], ih2⟩

/-- On a string of the numeric grammar with a digit, `strtod` reads the number the
string denotes. -/
theorem strtod_decimal_of_grammar {s : List Char} (hg : numeric_grammar s)
    (hdigit : ∃ c ∈ s, isdigit c = true) : strtod_decimal s = some (decimal_value s) := by
  obtain ⟨hcount, hchars⟩ := hg
  -- the part behind the sign, and what it shares with `s`
  have key : ∀ body : List Char, (∀ c ∈ body, isdigit c = true ∨ c = '.') →
      body.count '.' ≤ 1 → (∃ c ∈ body, isdigit c = true) →
      ¬ ((split_decimal body).1 = [] ∧ (split_decimal body).2 = []) ∧
        ((digits_value (split_decimal body).1 : ℚ) +
            (digits_value (split_decimal body).2 : ℚ) /
              (10 : ℚ) ^ (split_decimal body).2.length) =
          (digits_value (body.filter isdigit) : ℚ) /
            (10 : ℚ) ^ ((body.dropWhile (fun c => c != '.')).filter isdigit).length := by
    intro body hb hc hd
    obtain ⟨h1, h2⟩ := split_decimal_spec body hb hc
    constructor
    · rintro ⟨e1, e2⟩
      rw [e1, e2] at h1
      obtain ⟨c, hc, hcd⟩ := hd
      have : c ∈ body.filter isdigit := List.mem_filter.mpr ⟨hc, hcd⟩
      rw [h1] at this
      simp at this
    · rw [h1, h2, digits_value_append]
      have h10 : ((10 : ℚ) ^ (split_decimal body).2.length) ≠ 0 := by positivity
      push_cast
      field_simp
  cases s with
  | nil =>
    obtain ⟨c, hc, _⟩ := hdigit
    simp at hc
  | cons x xs =>
    have htail : ∀ c ∈ xs, isdigit c = true ∨ c = '.' := by
      intro c hc
      obtain ⟨j, hj⟩ := List.mem_iff_getElem?.mp hc
      rcases hchars (j + 1) c (by simpa using hj) with h | h | h
      · exact Or.inl h
      · exact Or.inr h
      · omega
    by_cases hx : x = '-'
    · subst hx
      have hc' : List.count '.' xs ≤ 1 := by
        rw [List.count_cons_of_ne (by decide)] at hcount
        exact hcount
      have hd' : ∃ c ∈ xs, isdigit c = true := by
        obtain ⟨c, hc, hcd⟩ := hdigit
        rcases List.mem_cons.mp hc with h | h
        · rw [h] at hcd
          exact absurd hcd (by decide)
        · exact ⟨c, h, hcd⟩
      obtain ⟨hne, hval⟩ := key xs htail hc' hd'
      have hm : isdigit '-' = false := by decide
      simp only [strtod_decimal, decimal_value, List.head?_cons, ↓reduceIte, List.drop_one,
        List.tail_cons, hne, hval, List.filter_cons, hm, Bool.false_eq_true,
        List.dropWhile_cons, bne_iff_ne, ne_eq]
      simp
    · have hall : ∀ c ∈ x :: xs, isdigit c = true ∨ c = '.' := by
        intro c hc
        rcases List.mem_cons.mp hc with h | h
        · rcases hchars 0 x (by simp) with h' | h' | h'
          · exact Or.inl (h ▸ h')
          · exact Or.inr (h ▸ h')
          · exact absurd h'.1 hx
        · exact htail c h
      obtain ⟨hne, hval⟩ := key (x :: xs) hall hcount hdigit
      have hhead : ¬ ((x :: xs).head? = some '-') := by simpa using hx
      simp only [strtod_decimal, decimal_value, hhead, ↓reduceIte, hne, hval]

/-- On a string of the numeric grammar with a digit, within the range of `double`,
`stod` returns the `double` nearest to the number the string denotes. -/
theorem stod_of_grammar {s : List Char} (hg : numeric_grammar s)
    (hdigit : ∃ c ∈ s, isdigit c = true) (hrange : in_double_range (decimal_value s)) :
    stod s = .ok (round_to_double (decimal_value s)) := by
  obtain ⟨hlt, hnorm⟩ := hrange
  have h1 : ¬ double_overflow ≤ |decimal_value s| := not_le.mpr hlt
  have h2 : ¬ (|decimal_value s| < double_min_normal ∧
      round_to_double (decimal_value s) ≠ decimal_value s) := by
    rintro ⟨hsmall, hne⟩
    rcases hnorm with h0 | h0
    · rw [h0] at hne
      exact hne (by simp [round_to_double])
    · exact absurd hsmall (not_lt.mpr h0)
  simp only [stod, strtod_decimal_of_grammar hg hdigit, h1, h2, ↓reduceIte]

/-- The `double` nearest to 50 is 50. -/
theorem round_to_double_fifty : round_to_double 50 = 50 := by
  have hlog : Int.log 2 (50 : ℚ) = 5 := by
    have h : ((50 : ℕ) : ℚ) = 50 := by norm_num
    rw [← h, Int.log_natCast]
    have : Nat.log 2 50 = 5 := Nat.log_eq_of_pow_le_of_lt_pow (by norm_num) (by norm_num)
    rw [this]
    rfl
  have habs : |(50 : ℚ)| = 50 := abs_of_pos (by norm_num)
  have hfloor : ⌊(50 : ℚ) / 2 ^ (-47 : ℤ)⌋ = 50 * 2 ^ 47 := by
    rw [Int.floor_eq_iff]
    constructor <;> norm_num [zpow_neg]
  simp only [round_to_double, habs, hlog, round_half_even]
  norm_num [hfloor, zpow_neg]

theorem digits_value_zeros (n : Nat) : digits_value (List.replicate n '0') = 0 := by
  induction n with
  | zero => rfl
  | succ n ih =>
    have h := digits_value_append ['0'] (List.replicate n '0')
    have h0 : digits_value ['0'] = 0 := by decide
    rw [ih, h0] at h
    rw [List.replicate_succ]
    simpa using h

/-- The string `1` followed by `n` zeros is within the numeric grammar and denotes
`10 ^ n`. -/
theorem one_zeros_spec (n : Nat) :
    numeric_grammar ('1' :: List.replicate n '0') ∧
      (∃ c ∈ '1' :: List.replicate n '0', isdigit c = true) ∧
      decimal_value ('1' :: List.replicate n '0') = (10 : ℚ) ^ n := by
  have hmem : ∀ c ∈ '1' :: List.replicate n '0', c = '1' ∨ c = '0' := by
    intro c hc
    rcases List.mem_cons.mp hc with h | h
    · exact Or.inl h
    · exact Or.inr (List.eq_of_mem_replicate h)
  have hdig : ∀ c ∈ '1' :: List.replicate n '0', isdigit c = true := by
    intro c hc
    rcases hmem c hc with h | h <;> rw [h] <;> decide
  have hdot : ∀ c ∈ '1' :: List.replicate n '0', (c != '.') = true := by
    intro c hc
    rcases hmem c hc with h | h <;> rw [h] <;> decide
  refine ⟨⟨?_, ?_⟩, ⟨'1', List.mem_cons_self _ _, by decide⟩, ?_⟩
  · have : List.count '.' ('1' :: List.replicate n '0') = 0 := by
      apply List.count_eq_zero.mpr
      intro h
      rcases hmem _ h with h | h <;> exact absurd h (by decide)
    omega
  · intro i c hc
    exact Or.inl (hdig c (List.mem_iff_getElem?.mpr ⟨i, hc⟩))
  · have hdrop : List.dropWhile (fun c => c != '.') ('1' :: List.replicate n '0') = [] :=
      List.dropWhile_eq_nil_iff.mpr hdot
    have hval : digits_value ('1' :: List.replicate n '0') = 10 ^ n := by
      have h := digits_value_append ['1'] (List.replicate n '0')
      simp only [List.singleton_append, digits_value_zeros, List.length_replicate] at h
      rw [h]
      simp [digits_value]
    simp only [decimal_value, filter_isdigit_of_all hdig, hdrop, hval]
    simp

/-- A file of one well-formed line loads to the map of that one entry. -/
theorem ctor_single_line (name : List Char) {line key value : List Char}
    (hwf : well_formed line key value) (hnl : '\n' ∉ line) (nl : Bool) :
    config.ctor name (some (line ++ if nl then ['\n'] else [])) =
      .ok { confile := name, content := [(key, value)] } := by
  have hne : line ≠ [] := by
    obtain ⟨body, comment, rfl, _⟩ := hwf
    simp
  simp only [config.ctor, getlines_single line hnl hne nl, read_loop,
    parse_line_well_formed hwf, Map.insert]

/-- A skipped line can be inserted or deleted anywhere without changing the loop. -/
theorem read_loop_skip {l : List Char} (h : parse_line l = .ok none)
    (pre post : List (List Char)) (m : Map) :
    read_loop (pre ++ l :: post) m = read_loop (pre ++ post) m := by
  rw [read_loop_append, read_loop_append pre post]
  cases read_loop pre m with
  | error e => rfl
  | ok m' => simp only [read_loop, h]

/-- Over blank and well-formed lines the loop ends without error or with
`incompatible_format`. -/
theorem read_loop_blank_or_well_formed (ls : List (List Char)) (m : Map)
    (h : ∀ l ∈ ls, blank l ∨ ∃ k v, well_formed l k v) :
    read_loop ls m = .error .incompatible_format ∨ ∃ m', read_loop ls m = .ok m' := by
  induction ls generalizing m with
  | nil => exact Or.inr ⟨m, rfl⟩
  | cons l ls ih =>
    have hls : ∀ l' ∈ ls, blank l' ∨ ∃ k v, well_formed l' k v :=
      fun l' hl' => h l' (List.mem_cons_of_mem _ hl')
    rcases h l (List.mem_cons_self _ _) with hb | ⟨k, v, hwf⟩
    · by_cases hlen : l.length ≤ 2
      · simp only [read_loop, parse_line_short hlen]
        exact ih m hls
      · left
        simp only [read_loop,
          parse_line_no_semicolon (by omega : 2 < l.length) (not_semicolon_of_blank hb)]
    · simp only [read_loop, parse_line_well_formed hwf]
      exact ih _ hls

/-- The constructor fails with the error of the first line that fails. -/
theorem ctor_error_of_line {name text : List Char} {pre post : List (List Char)}
    {line : List Char} {m : Map} {e : Exn} (hlines : getlines text = pre ++ line :: post)
    (hpre : read_loop pre [] = .ok m) (hline : parse_line line = .error e) :
    config.ctor name (some text) = .error e := by
  simp only [config.ctor, hlines, read_loop_append pre (line :: post), hpre, read_loop, hline]

/-! ## C1: a well-formed line is stored under its key -/

/-- C1: for a non-empty key `K` and value `V` without space, `';'`, `'='` or line
break, every `body` that is `K=V` with spaces inserted anywhere, and every comment `C`
without line break, loading the file whose only line is `body;C` (with or without a
final line terminator) succeeds with the single entry `K ↦ V`, whatever `C` is, and
`get_value_string K` returns exactly `V`. -/
theorem C1_single_line_get_value_string (K V body C name : List Char) (nl : Bool)
    (hK : K ≠ []) (hV : V ≠ [])
    (hKc : ∀ c ∈ K, c ≠ ' ' ∧ c ≠ ';' ∧ c ≠ '=' ∧ c ≠ '\n')
    (hVc : ∀ c ∈ V, c ≠ ' ' ∧ c ≠ ';' ∧ c ≠ '=' ∧ c ≠ '\n')
    (hbody : remove_spaces body = K ++ '=' :: V)
    (hC : '\n' ∉ C) :
    config.ctor name (some ((body ++ ';' :: C) ++ if nl then ['\n'] else [])) =
        .ok { confile := name, content := [(K, V)] } ∧
      config.get_value_string { confile := name, content := [(K, V)] } K = .ok V := by
  have hsemi : ';' ∉ body :=
    not_mem_body_of_remove_spaces hbody (by decide) (by decide)
      (fun h => (hKc _ h).2.1 rfl) (fun h => (hVc _ h).2.1 rfl)
  have hnl : '\n' ∉ body :=
    not_mem_body_of_remove_spaces hbody (by decide) (by decide)
      (fun h => (hKc _ h).2.2.2 rfl) (fun h => (hVc _ h).2.2.2 rfl)
  have hwf : well_formed (body ++ ';' :: C) K V :=
    ⟨body, C, rfl, hsemi, hbody, hK, hV, fun h => (hKc _ h).2.2.1 rfl,
      fun h => (hVc _ h).2.2.1 rfl⟩
  have hline : '\n' ∉ body ++ ';' :: C := by
    simp only [List.mem_append, List.mem_cons, not_or]
    exact ⟨hnl, by decide, hC⟩
  constructor
  · simp only [config.ctor, getlines_single _ hline (by simp) nl, read_loop,
      parse_line_well_formed hwf, Map.insert]
  · simp [config.get_value_string, Map.at]

/-- C1 at the line `  da ta file = My File.txt ;;a=b` (key `datafile`, value
`MyFile.txt`, a comment holding `';'` and `'='`). -/
theorem C1_single_line_get_value_string_witness :
    config.ctor "config.cfg".toList
        (some (("  da ta file = My File.txt ".toList ++ ';' :: ";a=b".toList) ++
          if true then ['\n'] else [])) =
        .ok { confile := "config.cfg".toList,
              content := [("datafile".toList, "MyFile.txt".toList)] } ∧
      config.get_value_string
        { confile := "config.cfg".toList,
          content := [("datafile".toList, "MyFile.txt".toList)] } "datafile".toList =
        .ok "MyFile.txt".toList :=
  C1_single_line_get_value_string "datafile".toList "MyFile.txt".toList
    "  da ta file = My File.txt ".toList ";a=b".toList "config.cfg".toList true
    (by decide) (by decide) (by decide) (by decide) (by decide) (by decide)

/-! ## C2: the last occurrence of a duplicate key wins -/

/-- C2: in a file that loads successfully, if a line is well-formed with key `k` and
value `v` (after comment and space removal) and no later line has the key `k`, then
`get_value_string k` returns `v` and the map holds exactly one entry for `k`, however
many earlier lines have the key `k` as well. -/
theorem C2_duplicate_key_last_wins (name text : List Char) (pre post : List (List Char))
    (line k v : List Char) (c : config)
    (hlines : getlines text = pre ++ line :: post)
    (hload : config.ctor name (some text) = .ok c)
    (hline : well_formed line k v)
    (hlast : ∀ l ∈ post, ∀ v', ¬ well_formed l k v') :
    config.get_value_string c k = .ok v ∧ Map.entries k c.content = 1 := by
  have hlast' : ∀ l ∈ post, ∀ v', parse_line l ≠ .ok (some (k, v')) :=
    fun l hl v' h => hlast l hl v' (well_formed_of_parse_line h)
  simp only [config.ctor, hlines, read_loop_append pre (line :: post)] at hload
  cases hpre : read_loop pre [] with
  | error e => simp [hpre] at hload
  | ok m₁ =>
    simp only [hpre, read_loop, parse_line_well_formed hline] at hload
    cases hpost : read_loop post (Map.insert k v m₁) with
    | error e => simp [hpost] at hload
    | ok m₂ =>
      simp only [hpost, Except.ok.injEq] at hload
      have hsorted : Map.sorted m₁ := read_loop_sorted pre List.Pairwise.nil hpre
      have h := read_loop_other_keys post k hlast' hpost
      rw [Map.at_insert_self, Map.entries_insert_self k v hsorted] at h
      subst hload
      exact ⟨by simp [config.get_value_string, h.1], h.2⟩

/-- C2 on the file `a=1;`, `b=2;`, `a = 3;`, `c=4;`: key `a` ends with the value `3`,
held once. -/
theorem C2_duplicate_key_last_wins_witness :
    config.get_value_string
        { confile := "f".toList,
          content := [("a".toList, "3".toList), ("b".toList, "2".toList),
            ("c".toList, "4".toList)] }
        "a".toList = .ok "3".toList ∧
      Map.entries "a".toList
        [("a".toList, "3".toList), ("b".toList, "2".toList), ("c".toList, "4".toList)] = 1 :=
  C2_duplicate_key_last_wins "f".toList "a=1;\nb=2;\na = 3;\nc=4;\n".toList
    ["a=1;".toList, "b=2;".toList] ["c=4;".toList] "a = 3;".toList "a".toList "3".toList
    { confile := "f".toList,
      content := [("a".toList, "3".toList), ("b".toList, "2".toList),
        ("c".toList, "4".toList)] }
    (by decide) (by decide)
    ⟨"a = 3".toList, [], rfl, by decide, by decide, by decide, by decide, by decide,
      by decide⟩
    (by
      intro l hl v' hw
      rw [List.mem_singleton] at hl
      subst hl
      have h := parse_line_well_formed hw
      have e : parse_line "c=4;".toList = .ok (some ("c".toList, "4".toList)) := by decide
      rw [e] at h
      simp at h)

/-! ## C3, C4: lookups of present and absent keys -/

/-- C3: for every loaded store `c` and every key, `get_value_string` fails with
`key_notfound` exactly when the map has no entry for the key, and for an entry
`(key, v)` of the map it returns `v` unchanged. -/
theorem C3_get_value_string_lookup (name : List Char) (input : Option (List Char))
    (c : config) (key : List Char) (hload : config.ctor name input = .ok c) :
    (config.get_value_string c key = .error .key_notfound ↔ ∀ v, (key, v) ∉ c.content) ∧
      ∀ v, (key, v) ∈ c.content → config.get_value_string c key = .ok v := by
  constructor
  · rw [← Map.at_eq_none_iff]
    cases h : Map.at key c.content <;> simp [config.get_value_string, h]
  · intro v hv
    simp [config.get_value_string, Map.at_eq_some_of_mem (ctor_sorted hload) hv]

/-- C3 on the store loaded from the line `datafile = data.txt;`. -/
theorem C3_get_value_string_lookup_witness :
    (config.get_value_string ⟨"f".toList, [("datafile".toList, "data.txt".toList)]⟩
          "datafile2".toList = .error .key_notfound ↔
        ∀ v, ("datafile2".toList, v) ∉
          (config.mk "f".toList [("datafile".toList, "data.txt".toList)]).content) ∧
      ∀ v, ("datafile2".toList, v) ∈
          (config.mk "f".toList [("datafile".toList, "data.txt".toList)]).content →
        config.get_value_string ⟨"f".toList, [("datafile".toList, "data.txt".toList)]⟩
          "datafile2".toList = .ok v :=
  C3_get_value_string_lookup "f".toList (some "datafile = data.txt;".toList)
    ⟨"f".toList, [("datafile".toList, "data.txt".toList)]⟩ "datafile2".toList (by decide)

/-- C4: for every loaded store, every key without entry in the map and every
default value `d`, `get_value key d` returns `d` and raises no error. -/
theorem C4_get_value_default (name : List Char) (input : Option (List Char))
    (c : config) (key : List Char) (d : Double) (_hload : config.ctor name input = .ok c)
    (habsent : ∀ v, (key, v) ∉ c.content) :
    config.get_value c key d = .ok d := by
  simp [config.get_value, (Map.at_eq_none_iff key c.content).mpr habsent]

/-- C4 on the store loaded from `alpha = 0.9;`, key `beta`, default `0.89`. -/
theorem C4_get_value_default_witness :
    config.get_value ⟨"f".toList, [("alpha".toList, "0.9".toList)]⟩ "beta".toList (89 / 100) =
      .ok (89 / 100) :=
  C4_get_value_default "f".toList (some "alpha = 0.9;".toList)
    ⟨"f".toList, [("alpha".toList, "0.9".toList)]⟩ "beta".toList (89 / 100) (by decide)
    (by simp)

/-! ## C5: numeric values -/

/-- C5, as the code has it: for every loaded store and every key whose stored value
matches the numeric grammar, holds at least one digit and denotes a number within the
range of `double`, `get_value` returns the `double` nearest to the number the stored
string denotes in decimal, whatever the default is. In particular, after loading the
lines `alpha = 0.9; learning rate` and `n_iteration = 50; count`, `get_value "alpha" 1.0`
is the `double` 0.9 and `get_value "n_iteration" 0` is 50. -/
theorem C5_get_value_number :
    (∀ (name : List Char) (input : Option (List Char)) (c : config) (key v : List Char)
        (d : Double), config.ctor name input = .ok c → (key, v) ∈ c.content →
        numeric_grammar v → (∃ ch ∈ v, isdigit ch = true) →
        in_double_range (decimal_value v) →
        config.get_value c key d = .ok (round_to_double (decimal_value v))) ∧
      ∀ name : List Char, ∃ c : config,
        config.ctor name
            (some "alpha = 0.9; learning rate\nn_iteration = 50; count\n".toList) = .ok c ∧
          config.get_value c "alpha".toList 1 = .ok (round_to_double (9 / 10)) ∧
          config.get_value c "n_iteration".toList 0 = .ok 50 := by
  have general : ∀ (name : List Char) (input : Option (List Char)) (c : config)
      (key v : List Char) (d : Double), config.ctor name input = .ok c →
      (key, v) ∈ c.content → numeric_grammar v → (∃ ch ∈ v, isdigit ch = true) →
      in_double_range (decimal_value v) →
      config.get_value c key d = .ok (round_to_double (decimal_value v)) := by
    intro name input c key v d hload hv hg hdigit hrange
    simp [config.get_value, Map.at_eq_some_of_mem (ctor_sorted hload) hv,
      (is_valid_number_iff v).mpr hg, stod_of_grammar hg hdigit hrange]
  refine ⟨general, fun name => ?_⟩
  have hload : config.ctor name
      (some "alpha = 0.9; learning rate\nn_iteration = 50; count\n".toList) =
      .ok ⟨name, [("alpha".toList, "0.9".toList), ("n_iteration".toList, "50".toList)]⟩ := by
    rfl
  have hA : decimal_value "0.9".toList = 9 / 10 := by
    simp [decimal_value, digits_value, isdigit]
  have hN : decimal_value "50".toList = 50 := by
    simp [decimal_value, digits_value, isdigit]
  have hrangeA : in_double_range (decimal_value "0.9".toList) := by
    rw [hA]
    simp only [in_double_range, double_overflow, double_min_normal]
    rw [abs_of_pos (by norm_num)]
    exact ⟨by norm_num, Or.inr (by norm_num)⟩
  have hrangeN : in_double_range (decimal_value "50".toList) := by
    rw [hN]
    simp only [in_double_range, double_overflow, double_min_normal]
    rw [abs_of_pos (by norm_num)]
    exact ⟨by norm_num, Or.inr (by norm_num)⟩
  refine ⟨_, hload, ?_, ?_⟩
  · rw [← hA]
    exact general name _ _ "alpha".toList "0.9".toList 1 hload (by simp)
      ((is_valid_number_iff _).mp (by decide)) ⟨'0', by simp, by decide⟩ hrangeA
  · rw [← round_to_double_fifty, ← hN]
    exact general name _ _ "n_iteration".toList "50".toList 0 hload (by simp)
      ((is_valid_number_iff _).mp (by decide)) ⟨'5', by simp, by decide⟩ hrangeN

/-- C5 as stated fails: the stored values `-` and `1` followed by 400 zeros match the
numeric grammar, and `get_value` fails on both, with the `std::invalid_argument` and the
`std::out_of_range` of `stod`. -/
theorem C5_grammar_values_that_fail :
    (numeric_grammar "-".toList ∧
        ∃ c : config, config.ctor [] (some "a=-;".toList) = .ok c ∧
          ("a".toList, "-".toList) ∈ c.content ∧
          config.get_value c "a".toList 1 = .error .std_invalid_argument) ∧
      (numeric_grammar ('1' :: List.replicate 400 '0') ∧
        ∃ c : config,
          config.ctor [] (some (("n=".toList ++ '1' :: List.replicate 400 '0') ++
              ';' :: [] ++ if false then ['\n'] else [])) = .ok c ∧
          ("n".toList, '1' :: List.replicate 400 '0') ∈ c.content ∧
          config.get_value c "n".toList 0 = .error .std_out_of_range) := by
  have main : ∀ v : List Char, numeric_grammar v → (∃ c ∈ v, isdigit c = true) →
      (∀ c ∈ v, c ≠ '=' ∧ c ≠ ';' ∧ c ≠ ' ' ∧ c ≠ '\n') →
      double_overflow ≤ |decimal_value v| →
      ∃ c : config,
        config.ctor [] (some (("n=".toList ++ v) ++ ';' :: [] ++
            if false then ['\n'] else [])) = .ok c ∧
          ("n".toList, v) ∈ c.content ∧
          config.get_value c "n".toList 0 = .error .std_out_of_range := by
    intro v hg hdigit hnot hover
    have hv : v ≠ [] := by
      obtain ⟨c, hc, _⟩ := hdigit
      exact List.ne_nil_of_mem hc
    have hfilter : remove_spaces v = v :=
      List.filter_eq_self.mpr (fun c hc => by simpa using (hnot c hc).2.2.1)
    have hbody : remove_spaces ("n=".toList ++ v) = "n".toList ++ '=' :: v := by
      simp only [remove_spaces] at hfilter
      simp only [remove_spaces, List.filter_append, hfilter]
      rfl
    have hwf : well_formed (("n=".toList ++ v) ++ ';' :: []) "n".toList v := by
      refine ⟨_, [], rfl, ?_, hbody, by decide, hv, by decide, fun h => (hnot _ h).1 rfl⟩
      intro h
      rcases List.mem_append.mp h with h | h
      · revert h; decide
      · exact (hnot _ h).2.1 rfl
    have hnl : '\n' ∉ ("n=".toList ++ v) ++ ';' :: [] := by
      intro h
      rcases List.mem_append.mp h with h | h
      · rcases List.mem_append.mp h with h | h
        · revert h; decide
        · exact (hnot _ h).2.2.2 rfl
      · revert h; decide
    refine ⟨_, ctor_single_line [] hwf hnl false, List.mem_singleton.mpr rfl, ?_⟩
    simp [config.get_value, Map.at, (is_valid_number_iff _).mpr hg, stod,
      strtod_decimal_of_grammar hg hdigit, hover]
  refine ⟨⟨(is_valid_number_iff _).mp (by decide), ⟨[], [("a".toList, "-".toList)]⟩,
    by decide, by decide, by decide⟩, ?_⟩
  obtain ⟨hg, hdigit, hval⟩ := one_zeros_spec 400
  have hnot : ∀ c ∈ '1' :: List.replicate 400 '0', c ≠ '=' ∧ c ≠ ';' ∧ c ≠ ' ' ∧ c ≠ '\n' := by
    intro c hc
    rcases List.mem_cons.mp hc with h | h
    · rw [h]; decide
    · rw [List.eq_of_mem_replicate h]; decide
  have hover : double_overflow ≤ |decimal_value ('1' :: List.replicate 400 '0')| := by
    rw [hval, abs_of_pos (by positivity)]
    simp only [double_overflow]
    norm_num
  exact ⟨hg, main _ hg hdigit hnot hover⟩

/-- C5 on the store loaded from `x = -12.25;`: the value denotes `-49/4`. -/
theorem C5_get_value_number_witness :
    config.get_value ⟨"f".toList, [("x".toList, "-12.25".toList)]⟩ "x".toList 0 =
      .ok (round_to_double (decimal_value "-12.25".toList)) :=
  C5_get_value_number.1 "f".toList (some "x = -12.25;".toList)
    ⟨"f".toList, [("x".toList, "-12.25".toList)]⟩ "x".toList "-12.25".toList 0
    (by decide) (by simp) ((is_valid_number_iff _).mp (by decide))
    ⟨'1', by simp, by decide⟩
    (by
      have h : decimal_value "-12.25".toList = -(49 / 4) := by
        simp [decimal_value, digits_value, isdigit]
        norm_num
      rw [h]
      simp only [in_double_range, double_overflow, double_min_normal, abs_neg]
      rw [abs_of_pos (by norm_num)]
      exact ⟨by norm_num, Or.inr (by norm_num)⟩)

/-! ## C6, C7: the numeric grammar -/


/-- C6: for every loaded store and every key whose stored value violates the numeric
grammar (a character other than a digit, `'.'` and `'-'`, or more than one `'.'`, or a
`'-'` at a position other than 0), `get_value` fails with `num_invalid`, whatever the
default value is. -/
theorem C6_get_value_num_invalid (name : List Char) (input : Option (List Char))
    (c : config) (key v : List Char) (d : Double) (hload : config.ctor name input = .ok c)
    (hv : (key, v) ∈ c.content) (hbad : violates_numeric_grammar v) :
    config.get_value c key d = .error .num_invalid := by
  have hnot : is_valid_number v = false := by
    cases h : is_valid_number v with
    | false => rfl
    | true => exact absurd ((is_valid_number_iff v).mp h) (not_numeric_grammar_of_violates hbad)
  simp [config.get_value, Map.at_eq_some_of_mem (ctor_sorted hload) hv, hnot]

/-- C6 on the store loaded from `theta = 0.8-1;`: a `'-'` at position 3. -/
theorem C6_get_value_num_invalid_witness :
    config.get_value ⟨"f".toList, [("theta".toList, "0.8-1".toList)]⟩ "theta".toList (4 / 5) =
      .error .num_invalid :=
  C6_get_value_num_invalid "f".toList (some "theta = 0.8-1;".toList)
    ⟨"f".toList, [("theta".toList, "0.8-1".toList)]⟩ "theta".toList "0.8-1".toList (4 / 5)
    (by decide) (by simp) (Or.inr (Or.inr ⟨3, by decide, by decide⟩))

/-- C7: for every string `s`, `is_valid_number s` is true exactly when every character
of `s` is a decimal digit, except that at most one `'.'` may occur anywhere and a `'-'`
only at position 0; the empty string is accepted. -/
theorem C7_is_valid_number_iff_grammar :
    (∀ s : List Char, is_valid_number s = true ↔ numeric_grammar s) ∧
      is_valid_number [] = true :=
  ⟨is_valid_number_iff, rfl⟩

/-! ## C8, C9: lines without `';'` and skipped lines -/

/-- C8, as the code has it: for every file in which some line has more than two
characters and contains no `';'`, and in which every earlier line is blank or
well-formed, loading fails with `incompatible_format` (as for the single-line file
`foo=bar`). -/
theorem C8_missing_semicolon (name text : List Char) (pre post : List (List Char))
    (line : List Char) (hlines : getlines text = pre ++ line :: post)
    (hpre : ∀ l ∈ pre, blank l ∨ ∃ k v, well_formed l k v)
    (hlen : 2 < line.length) (hsemi : ';' ∉ line) :
    config.ctor name (some text) = .error .incompatible_format := by
  rcases read_loop_blank_or_well_formed pre [] hpre with h | ⟨m, h⟩
  · simp only [config.ctor, hlines, read_loop_append pre (line :: post), h]
  · exact ctor_error_of_line hlines h (parse_line_no_semicolon hlen hsemi)

/-- C8 on the file of an empty line, the line `a = 1;` and the line `foo=bar`. -/
theorem C8_missing_semicolon_witness :
    config.ctor "f".toList (some "\na = 1;\nfoo=bar\n".toList) =
      .error .incompatible_format :=
  C8_missing_semicolon "f".toList "\na = 1;\nfoo=bar\n".toList ["".toList, "a = 1;".toList] []
    "foo=bar".toList (by decide)
    (by
      intro l hl
      simp only [List.mem_cons, List.mem_singleton, List.not_mem_nil, or_false] at hl
      rcases hl with h | h
      · exact Or.inl (by rw [h]; intro c hc; simp at hc)
      · exact Or.inr ⟨"a".toList, "1".toList, "a = 1".toList, [], by rw [h]; rfl, by decide,
          by decide, by decide, by decide, by decide, by decide⟩)
    (by decide) (by decide)

/-- C8 as stated fails: the line `ab` is neither empty nor whitespace-only and holds no
`';'`, yet the file of that one line loads, to the empty map. -/
theorem C8_short_line_without_semicolon_loads :
    ¬ blank "ab".toList ∧ ';' ∉ "ab".toList ∧ getlines "ab".toList = ["ab".toList] ∧
      config.ctor [] (some "ab".toList) = .ok { confile := [], content := [] } := by
  refine ⟨?_, by decide, by decide, by decide⟩
  intro h
  exact absurd (h 'a' (by decide)) (by decide)

/-- C9, as the code has it: every line that is empty or consists only of whitespace
and has at most two characters is skipped: it raises no error and adds no entry, and
inserting or deleting such a line anywhere in a file does not change the result of
loading. -/
theorem C9_blank_line_skipped (l : List Char) (_hblank : blank l) (hlen : l.length ≤ 2) :
    parse_line l = .ok none ∧
      ∀ (name text text' : List Char) (pre post : List (List Char)),
        getlines text = pre ++ l :: post → getlines text' = pre ++ post →
        config.ctor name (some text) = config.ctor name (some text') := by
  refine ⟨parse_line_short hlen, ?_⟩
  intro name text text' pre post h h'
  simp only [config.ctor, h, h', read_loop_skip (parse_line_short hlen)]

/-- C9 on the line of two spaces, between `a=1;` and `b=2;`. -/
theorem C9_blank_line_skipped_witness :
    parse_line "  ".toList = .ok none ∧
      ∀ (name text text' : List Char) (pre post : List (List Char)),
        getlines text = pre ++ "  ".toList :: post → getlines text' = pre ++ post →
        config.ctor name (some text) = config.ctor name (some text') :=
  C9_blank_line_skipped "  ".toList (by intro c hc; simp at hc; rw [hc]; decide) (by decide)

/-- C9 as stated fails: the line of three spaces consists only of whitespace, and the
file holding it fails with `incompatible_format`, while the empty file, the same file
without that line, loads. -/
theorem C9_whitespace_line_not_skipped :
    blank "   ".toList ∧ parse_line "   ".toList = .error .incompatible_format ∧
      getlines "   \n".toList = [] ++ "   ".toList :: [] ∧
      config.ctor [] (some "   \n".toList) = .error .incompatible_format ∧
      getlines [] = [] ++ [] ∧
      config.ctor [] (some []) = .ok { confile := [], content := [] } := by
  refine ⟨?_, by decide, by decide, by decide, by decide, by decide⟩
  intro c hc
  simp at hc
  rw [hc]
  decide

/-! ## C10: zero or several `'='` -/

/-- C10: for every line of more than two characters containing `';'` whose text before
the first `';'`, spaces removed, holds no `'='` (the empty text included) or more than
one `'='`, the line is rejected with `incompatible_format`, wherever the `'='` are, and
so is every file in which the lines before it raise no error. -/
theorem C10_equal_sign_count (line : List Char) (hlen : 2 < line.length)
    (hsemi : ';' ∈ line)
    (hcount : (text_before_semicolon line).count '=' = 0 ∨
      1 < (text_before_semicolon line).count '=') :
    parse_line line = .error .incompatible_format ∧
      ∀ (name text : List Char) (pre post : List (List Char)) (m : Map),
        getlines text = pre ++ line :: post → read_loop pre [] = .ok m →
        config.ctor name (some text) = .error .incompatible_format := by
  have hline : parse_line line = .error .incompatible_format := by
    rw [parse_line_processed hlen hsemi]
    rcases hcount with h0 | h2
    · have hnot : '=' ∉ text_before_semicolon line := List.count_eq_zero.mp h0
      simp only [find_eq_none hnot, find_last_of_eq_none hnot, ne_eq, not_true_eq_false,
        ↓reduceIte]
    · have hne : find '=' (text_before_semicolon line) ≠
          find_last_of '=' (text_before_semicolon line) := by
        intro e
        have := count_le_one_of_find_eq e
        omega
      simp only [hne, ne_eq, not_false_eq_true, ↓reduceIte]
  exact ⟨hline, fun name text pre post m hlines hpre => ctor_error_of_line hlines hpre hline⟩

/-- C10 on the line `=b ar=;x`, with an `'='` at position 0 and one as last character. -/
theorem C10_equal_sign_count_witness :
    parse_line "=b ar=;x".toList = .error .incompatible_format ∧
      ∀ (name text : List Char) (pre post : List (List Char)) (m : Map),
        getlines text = pre ++ "=b ar=;x".toList :: post → read_loop pre [] = .ok m →
        config.ctor name (some text) = .error .incompatible_format :=
  C10_equal_sign_count "=b ar=;x".toList (by decide) (by decide) (Or.inr (by decide))

/-! ## Lemmas on the outcome of a line -/

/-- Exactly the lines of at most two characters are skipped. -/
theorem parse_line_eq_none_iff (line : List Char) :
    parse_line line = .ok none ↔ line.length ≤ 2 := by
  constructor
  · intro h
    by_contra hlen
    by_cases hsemi : ';' ∈ line
    · rw [parse_line_processed (by omega) hsemi] at h
      split at h
      · cases h
      · split at h
        · cases h
        · split at h
          · cases h
          · split at h
            · cases h
            · cases h
    · rw [parse_line_no_semicolon (by omega) hsemi] at h
      cases h
  · exact parse_line_short

/-- A malformed line raises an error, which it determines alone. -/
theorem parse_line_malformed {line : List Char} (h : malformed line) :
    ∃ e, parse_line line = .error e := by
  cases hp : parse_line line with
  | error e => exact ⟨e, rfl⟩
  | ok r =>
    cases r with
    | none =>
      have := (parse_line_eq_none_iff line).mp hp
      exact absurd this (by have := h.1; omega)
    | some kv => exact absurd ⟨kv.1, kv.2, well_formed_of_parse_line hp⟩ h.2

/-- A line that is skipped or well-formed raises no error. -/
theorem parse_line_ok_of_short_or_well_formed {line : List Char}
    (h : line.length ≤ 2 ∨ ∃ k v, well_formed line k v) : ∃ r, parse_line line = .ok r := by
  rcases h with h | ⟨k, v, h⟩
  · exact ⟨none, parse_line_short h⟩
  · exact ⟨some (k, v), parse_line_well_formed h⟩

/-- Over lines that are skipped or well-formed the loop ends without error. -/
theorem read_loop_ok (ls : List (List Char)) (m : Map)
    (h : ∀ l ∈ ls, l.length ≤ 2 ∨ ∃ k v, well_formed l k v) :
    ∃ m', read_loop ls m = .ok m' := by
  induction ls generalizing m with
  | nil => exact ⟨m, rfl⟩
  | cons l ls ih =>
    have hls : ∀ l' ∈ ls, l'.length ≤ 2 ∨ ∃ k v, well_formed l' k v :=
      fun l' hl' => h l' (List.mem_cons_of_mem _ hl')
    obtain ⟨r, hr⟩ := parse_line_ok_of_short_or_well_formed (h l (List.mem_cons_self _ _))
    cases r with
    | none =>
      simp only [read_loop, hr]
      exact ih m hls
    | some kv =>
      simp only [read_loop, hr]
      exact ih _ hls

/-- The outcome of a processed line whose text before the `';'` starts with its only
`'='`. -/
theorem parse_line_key_notfound {line rest : List Char} (hlen : 2 < line.length)
    (hsemi : ';' ∈ line) (htext : text_before_semicolon line = '=' :: rest)
    (hrest : '=' ∉ rest) : parse_line line = .error .key_notfound := by
  rw [parse_line_processed hlen hsemi, htext]
  have h1 : find '=' ('=' :: rest) = some 0 := by simp [find]
  have h2 : find_last_of '=' ('=' :: rest) = some 0 :=
    find_last_of_append_of_not_mem [] rest hrest
  simp only [h1, h2, ne_eq, not_true_eq_false, ↓reduceIte]

/-- The outcome of a processed line whose text before the `';'` is a key and a final
`'='`. -/
theorem parse_line_value_notfound {line key : List Char} (hlen : 2 < line.length)
    (hsemi : ';' ∈ line) (htext : text_before_semicolon line = key ++ ['='])
    (hkey : key ≠ []) (hnot : '=' ∉ key) : parse_line line = .error .value_notfound := by
  rw [parse_line_processed hlen hsemi, htext]
  have h1 : find '=' (key ++ ['=']) = some key.length := find_append_of_not_mem key [] hnot
  have h2 : find_last_of '=' (key ++ ['=']) = some key.length :=
    find_last_of_append_of_not_mem key [] (by simp)
  have h0 : key.length ≠ 0 := fun e => hkey (List.length_eq_zero.mp e)
  have h3 : key.length = (key ++ ['=']).length - 1 := by simp
  simp only [h1, h2, ne_eq, not_true_eq_false, ↓reduceIte, h0]
  rw [if_pos h3]

/-! ## C11, C12: a line without key, a line without value -/

/-- C11: for every processed line (more than two characters, with a `';'`) whose text
before the first `';'`, spaces removed, holds exactly one `'='`, at position 0, the line
raises `key_notfound`, and so does loading every file in which the lines before it are
skipped or well-formed (as for `=bar;`). -/
theorem C11_missing_key (line : List Char) (hlen : 2 < line.length) (hsemi : ';' ∈ line)
    (hcount : (text_before_semicolon line).count '=' = 1)
    (hfirst : (text_before_semicolon line)[0]? = some '=') :
    parse_line line = .error .key_notfound ∧
      ∀ (name text : List Char) (pre post : List (List Char)),
        getlines text = pre ++ line :: post →
        (∀ l ∈ pre, l.length ≤ 2 ∨ ∃ k v, well_formed l k v) →
        config.ctor name (some text) = .error .key_notfound := by
  have hline : parse_line line = .error .key_notfound := by
    cases ht : text_before_semicolon line with
    | nil => simp [ht] at hfirst
    | cons x rest =>
      rw [ht] at hcount hfirst
      simp only [List.getElem?_cons_zero, Option.some.injEq] at hfirst
      subst hfirst
      rw [List.count_cons_self] at hcount
      exact parse_line_key_notfound hlen hsemi ht (List.count_eq_zero.mp (by omega))
  refine ⟨hline, fun name text pre post hlines hpre => ?_⟩
  obtain ⟨m, hm⟩ := read_loop_ok pre [] hpre
  exact ctor_error_of_line hlines hm hline

/-- C11 on the file `a=1;`, ` = bar; no key`. -/
theorem C11_missing_key_witness :
    parse_line " = bar; no key".toList = .error .key_notfound ∧
      ∀ (name text : List Char) (pre post : List (List Char)),
        getlines text = pre ++ " = bar; no key".toList :: post →
        (∀ l ∈ pre, l.length ≤ 2 ∨ ∃ k v, well_formed l k v) →
        config.ctor name (some text) = .error .key_notfound :=
  C11_missing_key " = bar; no key".toList (by decide) (by decide) (by decide) (by decide)

/-- C12: for every processed line (more than two characters, with a `';'`) whose text
before the first `';'`, spaces removed, is a non-empty key without `'='` followed by one
final `'='`, the line raises `value_notfound`, and so does loading every file in which
the lines before it are skipped or well-formed (as for `foo=;`). -/
theorem C12_missing_value (line key : List Char) (hlen : 2 < line.length)
    (hsemi : ';' ∈ line) (htext : text_before_semicolon line = key ++ ['='])
    (hkey : key ≠ []) (hnot : '=' ∉ key) :
    parse_line line = .error .value_notfound ∧
      ∀ (name text : List Char) (pre post : List (List Char)),
        getlines text = pre ++ line :: post →
        (∀ l ∈ pre, l.length ≤ 2 ∨ ∃ k v, well_formed l k v) →
        config.ctor name (some text) = .error .value_notfound := by
  have hline := parse_line_value_notfound hlen hsemi htext hkey hnot
  refine ⟨hline, fun name text pre post hlines hpre => ?_⟩
  obtain ⟨m, hm⟩ := read_loop_ok pre [] hpre
  exact ctor_error_of_line hlines hm hline

/-- C12 on the line `foo = ; no value`. -/
theorem C12_missing_value_witness :
    parse_line "foo = ; no value".toList = .error .value_notfound ∧
      ∀ (name text : List Char) (pre post : List (List Char)),
        getlines text = pre ++ "foo = ; no value".toList :: post →
        (∀ l ∈ pre, l.length ≤ 2 ∨ ∃ k v, well_formed l k v) →
        config.ctor name (some text) = .error .value_notfound :=
  C12_missing_value "foo = ; no value".toList "foo".toList (by decide) (by decide)
    (by decide) (by decide) (by decide)

/-! ## C17, C18: the skip by length, the precedence of the missing key -/

/-- C17: every line of at most two characters is skipped, whatever its characters: it
raises no error, adds no entry and can be inserted or deleted anywhere without changing
the loop; every line of three or more characters is processed, to an error or to an
entry. The decision is on the length of the raw line alone. -/
theorem C17_skip_by_raw_length (line : List Char) :
    (line.length ≤ 2 →
        parse_line line = .ok none ∧
          ∀ (pre post : List (List Char)) (m : Map),
            read_loop (pre ++ line :: post) m = read_loop (pre ++ post) m) ∧
      (3 ≤ line.length →
        (∃ e, parse_line line = .error e) ∨ ∃ k v, parse_line line = .ok (some (k, v))) := by
  constructor
  · intro h
    exact ⟨parse_line_short h, read_loop_skip (parse_line_short h)⟩
  · intro h
    cases hp : parse_line line with
    | error e => exact Or.inl ⟨e, rfl⟩
    | ok r =>
      cases r with
      | none =>
        have := (parse_line_eq_none_iff line).mp hp
        omega
      | some kv => exact Or.inr ⟨kv.1, kv.2, rfl⟩

/-- C17 on the lines `=;`, `a;` and `ab`, skipped, and on `a;x`, processed. -/
theorem C17_skip_by_raw_length_witness :
    parse_line "=;".toList = .ok none ∧ parse_line "a;".toList = .ok none ∧
      parse_line "ab".toList = .ok none ∧
      ((∃ e, parse_line "a;x".toList = .error e) ∨
        ∃ k v, parse_line "a;x".toList = .ok (some (k, v))) :=
  ⟨((C17_skip_by_raw_length "=;".toList).1 (by decide)).1,
    ((C17_skip_by_raw_length "a;".toList).1 (by decide)).1,
    ((C17_skip_by_raw_length "ab".toList).1 (by decide)).1,
    (C17_skip_by_raw_length "a;x".toList).2 (by decide)⟩

/-- C18: when the text before the first `';'` of a processed line, spaces removed, is
exactly `=`, the line raises `key_notfound`, not `value_notfound`: the missing-key check
comes first. The same holds for loading every file in which the lines before it are
skipped or well-formed. -/
theorem C18_missing_key_before_missing_value (line : List Char) (hlen : 2 < line.length)
    (hsemi : ';' ∈ line) (htext : text_before_semicolon line = ['=']) :
    parse_line line = .error .key_notfound ∧ parse_line line ≠ .error .value_notfound ∧
      ∀ (name text : List Char) (pre post : List (List Char)),
        getlines text = pre ++ line :: post →
        (∀ l ∈ pre, l.length ≤ 2 ∨ ∃ k v, well_formed l k v) →
        config.ctor name (some text) = .error .key_notfound := by
  have hline : parse_line line = .error .key_notfound :=
    parse_line_key_notfound hlen hsemi htext (by simp)
  refine ⟨hline, by rw [hline]; simp, fun name text pre post hlines hpre => ?_⟩
  obtain ⟨m, hm⟩ := read_loop_ok pre [] hpre
  exact ctor_error_of_line hlines hm hline

/-- C18 on the line ` = ;`. -/
theorem C18_missing_key_before_missing_value_witness :
    parse_line " = ;".toList = .error .key_notfound ∧
      parse_line " = ;".toList ≠ .error .value_notfound ∧
      ∀ (name text : List Char) (pre post : List (List Char)),
        getlines text = pre ++ " = ;".toList :: post →
        (∀ l ∈ pre, l.length ≤ 2 ∨ ∃ k v, well_formed l k v) →
        config.ctor name (some text) = .error .key_notfound :=
  C18_missing_key_before_missing_value " = ;".toList (by decide) (by decide) (by decide)

/-! ## Lemmas on the entries of a loaded store -/

/-- Key and value of a well-formed line are non-empty, without space, `';'` and `'='`. -/
theorem stored_text_of_well_formed {line key value : List Char}
    (h : well_formed line key value) : stored_text key ∧ stored_text value := by
  obtain ⟨body, comment, _, hsemi, hbody, hk, hv, hke, hve⟩ := h
  have hmem : ∀ c, c ∈ key ∨ c ∈ value → c ∈ remove_spaces body := by
    intro c hc
    rw [hbody]
    rcases hc with hc | hc
    · exact List.mem_append_left _ hc
    · exact List.mem_append_right _ (List.mem_cons_of_mem _ hc)
  have hspace : ∀ c, c ∈ key ∨ c ∈ value → c ≠ ' ' := by
    intro c hc e
    have := (List.mem_filter.mp (hmem c hc)).2
    rw [e] at this
    exact absurd this (by decide)
  have hs : ∀ c, c ∈ key ∨ c ∈ value → c ≠ ';' := by
    intro c hc e
    exact hsemi (e ▸ mem_of_mem_remove_spaces (hmem c hc))
  exact ⟨⟨hk, fun m => hspace _ (Or.inl m) rfl, fun m => hs _ (Or.inl m) rfl, hke⟩,
    ⟨hv, fun m => hspace _ (Or.inr m) rfl, fun m => hs _ (Or.inr m) rfl, hve⟩⟩

/-- Every entry after the loop was there before or comes from a well-formed line. -/
theorem read_loop_entries (ls : List (List Char)) {m m' : Map}
    (h : read_loop ls m = .ok m') :
    ∀ e ∈ m', e ∈ m ∨ ∃ l ∈ ls, well_formed l e.1 e.2 := by
  induction ls generalizing m with
  | nil =>
    simp only [read_loop, Except.ok.injEq] at h
    subst h
    exact fun e he => Or.inl he
  | cons l ls ih =>
    simp only [read_loop] at h
    cases hp : parse_line l with
    | error e => simp [hp] at h
    | ok r =>
      cases r with
      | none =>
        simp only [hp] at h
        intro e he
        rcases ih h e he with h1 | ⟨l', hl', hw⟩
        · exact Or.inl h1
        · exact Or.inr ⟨l', List.mem_cons_of_mem _ hl', hw⟩
      | some kv =>
        obtain ⟨k, v⟩ := kv
        simp only [hp] at h
        intro e he
        rcases ih h e he with h1 | ⟨l', hl', hw⟩
        · rcases Map.mem_insert h1 with h2 | h2
          · exact Or.inr ⟨l, List.mem_cons_self _ _, by
              rw [h2]
              exact well_formed_of_parse_line hp⟩
          · exact Or.inl h2
        · exact Or.inr ⟨l', List.mem_cons_of_mem _ hl', hw⟩

theorem Map.at_insert_ne_none {k : List Char} (key value : List Char) {m : Map}
    (h : Map.at k m ≠ none) : Map.at k (Map.insert key value m) ≠ none := by
  by_cases hk : k = key
  · rw [hk, Map.at_insert_self]
    simp
  · rw [Map.at_insert_of_ne value m hk]
    exact h

/-- A key of the map stays in it through the loop, and every line is skipped or
well-formed with its key in the final map. -/
theorem read_loop_keys (ls : List (List Char)) {m m' : Map}
    (h : read_loop ls m = .ok m') :
    (∀ k, Map.at k m ≠ none → Map.at k m' ≠ none) ∧
      ∀ l ∈ ls, l.length ≤ 2 ∨ ∃ k v, well_formed l k v ∧ Map.at k m' ≠ none := by
  induction ls generalizing m with
  | nil =>
    simp only [read_loop, Except.ok.injEq] at h
    subst h
    exact ⟨fun k hk => hk, fun l hl => absurd hl (List.not_mem_nil l)⟩
  | cons l ls ih =>
    simp only [read_loop] at h
    cases hp : parse_line l with
    | error e => simp [hp] at h
    | ok r =>
      cases r with
      | none =>
        simp only [hp] at h
        obtain ⟨ih1, ih2⟩ := ih h
        refine ⟨ih1, fun l' hl' => ?_⟩
        rcases List.mem_cons.mp hl' with e | hl'
        · exact Or.inl (e ▸ (parse_line_eq_none_iff l).mp hp)
        · exact ih2 l' hl'
      | some kv =>
        obtain ⟨k, v⟩ := kv
        simp only [hp] at h
        obtain ⟨ih1, ih2⟩ := ih h
        refine ⟨fun k' hk' => ih1 k' (Map.at_insert_ne_none k v hk'), fun l' hl' => ?_⟩
        rcases List.mem_cons.mp hl' with e | hl'
        · refine Or.inr ⟨k, v, e ▸ well_formed_of_parse_line hp, ih1 k ?_⟩
          rw [Map.at_insert_self]
          simp
        · exact ih2 l' hl'

/-- What a successful load amounts to on the read loop. -/
theorem read_loop_of_ctor {name text : List Char} {c : config}
    (h : config.ctor name (some text) = .ok c) :
    read_loop (getlines text) [] = .ok c.content ∧ c.confile = name := by
  simp only [config.ctor] at h
  cases hr : read_loop (getlines text) [] with
  | error e => simp [hr] at h
  | ok m =>
    simp only [hr, Except.ok.injEq] at h
    subst h
    exact ⟨rfl, rfl⟩

/-! ## C13, C15, C19: all or nothing, the stored texts, the first malformed line -/

/-- C13: loading a file either fails with an error, and yields no store, or yields the
complete map: every line is skipped or well-formed with an entry for its key, and every
entry comes from a well-formed line. If any line is malformed, loading fails, whatever
lines precede or follow it. -/
theorem C13_all_or_nothing (name text : List Char) :
    ((∃ e, config.ctor name (some text) = .error e) ∨
        ∃ c, config.ctor name (some text) = .ok c ∧
          (∀ l ∈ getlines text,
            l.length ≤ 2 ∨ ∃ k v, well_formed l k v ∧ ∃ v', (k, v') ∈ c.content) ∧
          ∀ k v, (k, v) ∈ c.content → ∃ l ∈ getlines text, well_formed l k v) ∧
      ((∃ l ∈ getlines text, malformed l) → ∃ e, config.ctor name (some text) = .error e) := by
  have hok : ∀ c, config.ctor name (some text) = .ok c →
      (∀ l ∈ getlines text,
        l.length ≤ 2 ∨ ∃ k v, well_formed l k v ∧ ∃ v', (k, v') ∈ c.content) ∧
      ∀ k v, (k, v) ∈ c.content → ∃ l ∈ getlines text, well_formed l k v := by
    intro c hc
    obtain ⟨hr, _⟩ := read_loop_of_ctor hc
    constructor
    · intro l hl
      rcases (read_loop_keys _ hr).2 l hl with h | ⟨k, v, hw, hat⟩
      · exact Or.inl h
      · refine Or.inr ⟨k, v, hw, ?_⟩
        by_contra hnone
        exact hat ((Map.at_eq_none_iff k c.content).mpr
          (fun v' hv' => hnone ⟨v', hv'⟩))
    · intro k v hkv
      rcases read_loop_entries _ hr (k, v) hkv with h | h
      · exact absurd h (List.not_mem_nil _)
      · exact h
  constructor
  · cases hc : config.ctor name (some text) with
    | error e => exact Or.inl ⟨e, rfl⟩
    | ok c => exact Or.inr ⟨c, rfl, hok c hc⟩
  · rintro ⟨l, hl, hlen, hnot⟩
    cases hc : config.ctor name (some text) with
    | error e => exact ⟨e, rfl⟩
    | ok c =>
      rcases (hok c hc).1 l hl with h | ⟨k, v, hw, _⟩
      · omega
      · exact absurd ⟨k, v, hw⟩ hnot

/-- C15: in every successfully loaded store, every stored key and every stored value is
non-empty and contains no space character, no `';'` and no `'='`. -/
theorem C15_stored_texts (name : List Char) (input : Option (List Char)) (c : config)
    (hload : config.ctor name input = .ok c) (k v : List Char) (hkv : (k, v) ∈ c.content) :
    stored_text k ∧ stored_text v := by
  cases input with
  | none => simp [config.ctor] at hload
  | some text =>
    obtain ⟨hr, _⟩ := read_loop_of_ctor hload
    rcases read_loop_entries _ hr (k, v) hkv with h | ⟨l, _, hw⟩
    · exact absurd h (List.not_mem_nil _)
    · exact stored_text_of_well_formed hw

/-- C15 on the store loaded from ` da ta file = My File.txt ; a = b`. -/
theorem C15_stored_texts_witness :
    stored_text "datafile".toList ∧ stored_text "MyFile.txt".toList :=
  C15_stored_texts "f".toList (some " da ta file = My File.txt ; a = b".toList)
    ⟨"f".toList, [("datafile".toList, "MyFile.txt".toList)]⟩ (by decide)
    "datafile".toList "MyFile.txt".toList (by simp)

/-- C19: a malformed line determines an error kind alone, and loading fails with that
kind for every file in which the line is the first malformed one: whatever lines
follow it, and whatever skipped or well-formed lines precede it. -/
theorem C19_first_malformed_line_decides (line : List Char) (hmal : malformed line) :
    ∃ e, parse_line line = .error e ∧
      ∀ (name text : List Char) (pre post : List (List Char)),
        getlines text = pre ++ line :: post →
        (∀ l ∈ pre, l.length ≤ 2 ∨ ∃ k v, well_formed l k v) →
        config.ctor name (some text) = .error e := by
  obtain ⟨e, he⟩ := parse_line_malformed hmal
  refine ⟨e, he, fun name text pre post hlines hpre => ?_⟩
  obtain ⟨m, hm⟩ := read_loop_ok pre [] hpre
  exact ctor_error_of_line hlines hm he

/-- A line of more than two characters that raises an error is malformed. -/
theorem malformed_of_error {line : List Char} {e : Exn} (hlen : 2 < line.length)
    (h : parse_line line = .error e) : malformed line := by
  refine ⟨hlen, ?_⟩
  rintro ⟨k, v, hw⟩
  rw [parse_line_well_formed hw] at h
  cases h

/-- C13 on the file `a=1;`, `foo=bar`, `b=2;`: the malformed second line makes the
load fail. -/
theorem C13_all_or_nothing_witness :
    ∃ e, config.ctor "f".toList (some "a=1;\nfoo=bar\nb=2;\n".toList) = .error e :=
  (C13_all_or_nothing "f".toList "a=1;\nfoo=bar\nb=2;\n".toList).2
    ⟨"foo=bar".toList, by decide,
      malformed_of_error (e := .incompatible_format) (by decide) (by decide)⟩

/-- C19 on the line `=bar;`. -/
theorem C19_first_malformed_line_decides_witness :
    ∃ e, parse_line "=bar;".toList = .error e ∧
      ∀ (name text : List Char) (pre post : List (List Char)),
        getlines text = pre ++ "=bar;".toList :: post →
        (∀ l ∈ pre, l.length ≤ 2 ∨ ∃ k v, well_formed l k v) →
        config.ctor name (some text) = .error e :=
  C19_first_malformed_line_decides "=bar;".toList
    (malformed_of_error (e := .key_notfound) (by decide) (by decide))

/-! ## C16: the listing of `print_content` -/

/-- The order `str_lt` is the lexicographic order on the character codes. -/
theorem str_lt_iff_lex (a b : List Char) :
    str_lt a b = true ↔ List.Lex (fun x y : Char => x.toNat < y.toNat) a b := by
  induction a generalizing b with
  | nil =>
    cases b with
    | nil =>
      simp only [str_lt, Bool.false_eq_true, false_iff]
      intro h
      cases h
    | cons y ys =>
      simp only [str_lt, true_iff]
      exact List.Lex.nil
  | cons x xs ih =>
    cases b with
    | nil =>
      simp only [str_lt, Bool.false_eq_true, false_iff]
      intro h
      cases h
    | cons y ys =>
      simp only [str_lt]
      by_cases hxy : x.toNat < y.toNat
      · simp only [hxy, ↓reduceIte, true_iff]
        exact List.Lex.rel hxy
      · by_cases hyx : y.toNat < x.toNat
        · simp only [hxy, hyx, ↓reduceIte, Bool.false_eq_true, false_iff]
          intro h
          cases h with
          | cons h' => omega
          | rel h' => exact hxy h'
        · simp only [hxy, hyx, ↓reduceIte]
          have hx : x = y := char_eq_of_toNat_eq (by omega)
          subst hx
          rw [ih ys]
          constructor
          · exact List.Lex.cons
          · intro h
            cases h with
            | cons h' => exact h'
            | rel h' => exact absurd h' hxy

theorem Map.mem_of_at_eq_some {key value : List Char} {m : Map}
    (h : Map.at key m = some value) : (key, value) ∈ m := by
  induction m with
  | nil => simp [Map.at] at h
  | cons e rest ih =>
    obtain ⟨k, v⟩ := e
    by_cases hk : key = k
    · simp only [Map.at, hk, ↓reduceIte, Option.some.injEq] at h
      rw [hk, h]
      exact List.mem_cons_self _ _
    · simp only [Map.at, hk, ↓reduceIte] at h
      exact List.mem_cons_of_mem _ (ih h)

/-- C16: for every loaded store, `print_content` lists exactly the key/value pairs of
the map (the pairs `at` finds), each once, in strictly increasing lexicographic order
of the keys. -/
theorem C16_print_content_sorted (name : List Char) (input : Option (List Char))
    (c : config) (hload : config.ctor name input = .ok c) :
    (∀ k v, (k, v) ∈ config.print_content c ↔ Map.at k c.content = some v) ∧
      (config.print_content c).Nodup ∧
      (config.print_content c).Pairwise
        (fun a b => List.Lex (fun x y : Char => x.toNat < y.toNat) a.1 b.1) := by
  have hs := ctor_sorted hload
  refine ⟨fun k v => ⟨Map.at_eq_some_of_mem hs, Map.mem_of_at_eq_some⟩, ?_, ?_⟩
  · refine List.Pairwise.imp ?_ hs
    intro a b hab e
    rw [e, str_lt_irrefl] at hab
    exact Bool.false_ne_true hab
  · exact List.Pairwise.imp (fun {a b} hab => (str_lt_iff_lex a.1 b.1).mp hab) hs

/-- C16 on the store loaded from `n = 2;`, `alpha = 1;`, `beta = 3;`, `n = 4;`. -/
theorem C16_print_content_sorted_witness :
    (∀ k v, (k, v) ∈ config.print_content
          ⟨"f".toList, [("alpha".toList, "1".toList), ("beta".toList, "3".toList),
            ("n".toList, "4".toList)]⟩ ↔
        Map.at k (config.mk "f".toList [("alpha".toList, "1".toList),
          ("beta".toList, "3".toList), ("n".toList, "4".toList)]).content = some v) ∧
      (config.print_content
        ⟨"f".toList, [("alpha".toList, "1".toList), ("beta".toList, "3".toList),
          ("n".toList, "4".toList)]⟩).Nodup ∧
      (config.print_content
        ⟨"f".toList, [("alpha".toList, "1".toList), ("beta".toList, "3".toList),
          ("n".toList, "4".toList)]⟩).Pairwise
        (fun a b => List.Lex (fun x y : Char => x.toNat < y.toNat) a.1 b.1) :=
  C16_print_content_sorted "f".toList
    (some "n = 2;\nalpha = 1;\nbeta = 3;\nn = 4;\n".toList)
    ⟨"f".toList, [("alpha".toList, "1".toList), ("beta".toList, "3".toList),
      ("n".toList, "4".toList)]⟩ (by decide)

/-! ## C14: spaces on a line -/

theorem remove_spaces_takeWhile (l : List Char) :
    remove_spaces (l.takeWhile (fun c => c != ';')) =
      (remove_spaces l).takeWhile (fun c => c != ';') := by
  induction l with
  | nil => rfl
  | cons x xs ih =>
    simp only [remove_spaces] at ih ⊢
    by_cases hs : x = ';'
    · subst hs
      simp [List.takeWhile, List.filter]
    · by_cases hb : x = ' '
      · subst hb
        simpa [List.takeWhile, List.filter] using ih
      · have h1 : (x != ';') = true := by simpa using hs
        have h2 : (!(x == ' ')) = true := by simpa using hb
        simp only [List.takeWhile_cons, h1, List.filter_cons, h2, ↓reduceIte, ih]

theorem mem_semicolon_iff (l : List Char) : ';' ∈ l ↔ ';' ∈ remove_spaces l :=
  ⟨fun h => mem_remove_spaces h (by decide), mem_of_mem_remove_spaces⟩

/-- What a line is processed to depends on its space-free text and on whether it has
more than two characters. -/
theorem parse_line_congr {a b : List Char} (h : remove_spaces a = remove_spaces b)
    (hlen : a.length ≤ 2 ↔ b.length ≤ 2) : parse_line a = parse_line b := by
  by_cases ha : a.length ≤ 2
  · rw [parse_line_short ha, parse_line_short (hlen.mp ha)]
  · have hb : ¬ b.length ≤ 2 := fun e => ha (hlen.mpr e)
    have htext : text_before_semicolon a = text_before_semicolon b := by
      simp only [text_before_semicolon, remove_spaces_takeWhile, h]
    by_cases hsemi : ';' ∈ a
    · have hsemi' : ';' ∈ b := (mem_semicolon_iff b).mpr (h ▸ (mem_semicolon_iff a).mp hsemi)
      rw [parse_line_processed (by omega) hsemi, parse_line_processed (by omega) hsemi', htext]
    · have hsemi' : ';' ∉ b :=
        fun e => hsemi ((mem_semicolon_iff a).mpr (h ▸ (mem_semicolon_iff b).mp e))
      rw [parse_line_no_semicolon (by omega) hsemi, parse_line_no_semicolon (by omega) hsemi']

theorem read_loop_congr {ls ls' : List (List Char)}
    (h : List.Forall₂ (fun a b => parse_line a = parse_line b) ls ls') (m : Map) :
    read_loop ls m = read_loop ls' m := by
  induction h generalizing m with
  | nil => rfl
  | cons hab _ ih =>
    simp only [read_loop, hab]
    split
    · rfl
    · exact ih m
    · exact ih _

/-- C14, as the code has it: space characters anywhere on a line are insignificant as
long as the line stays on its side of the two-character skip threshold: for every two
files whose corresponding lines differ only by the insertion or deletion of space
characters and are both at most two characters long or both longer, loading gives the
same result, the same error kind or the same mapping. -/
theorem C14_spaces_insignificant (name text text' : List Char)
    (h : List.Forall₂
      (fun a b => remove_spaces a = remove_spaces b ∧ (a.length ≤ 2 ↔ b.length ≤ 2))
      (getlines text) (getlines text')) :
    config.ctor name (some text) = config.ctor name (some text') := by
  have h' : List.Forall₂ (fun a b => parse_line a = parse_line b)
      (getlines text) (getlines text') :=
    List.Forall₂.imp (fun _ _ hab => parse_line_congr hab.1 hab.2) h
  simp only [config.ctor, read_loop_congr h' []]

/-- C14 on the files `a = 1 ;`, two spaces, `b=2;` and `a=1;`, one space, ` b = 2 ;`. -/
theorem C14_spaces_insignificant_witness :
    config.ctor "f".toList (some "a = 1 ;\n  \nb=2;\n".toList) =
      config.ctor "f".toList (some "a=1;\n \n b = 2 ;".toList) :=
  C14_spaces_insignificant "f".toList "a = 1 ;\n  \nb=2;\n".toList
    "a=1;\n \n b = 2 ;".toList
    (by
      have h1 : getlines "a = 1 ;\n  \nb=2;\n".toList =
          ["a = 1 ;".toList, "  ".toList, "b=2;".toList] := by decide
      have h2 : getlines "a=1;\n \n b = 2 ;".toList =
          ["a=1;".toList, " ".toList, " b = 2 ;".toList] := by decide
      rw [h1, h2]
      exact .cons ⟨by decide, by decide⟩
        (.cons ⟨by decide, by decide⟩ (.cons ⟨by decide, by decide⟩ .nil)))

/-- C14 as stated fails. The one-line files `a<tab>=1;` and `a=1;` differ by a tab only
and load to different maps, the tab staying in the key. The one-line files `a;` and
`a ;` differ by a space only; the first is skipped and loads, the second fails with
`incompatible_format`. -/
theorem C14_tab_and_threshold_matter :
    (getlines "a\t=1;".toList = ["a\t=1;".toList] ∧ getlines "a=1;".toList = ["a=1;".toList] ∧
        remove_spaces_and_tabs "a\t=1;".toList = remove_spaces_and_tabs "a=1;".toList ∧
        config.ctor [] (some "a\t=1;".toList) = .ok ⟨[], [("a\t".toList, "1".toList)]⟩ ∧
        config.ctor [] (some "a=1;".toList) = .ok ⟨[], [("a".toList, "1".toList)]⟩) ∧
      (getlines "a;".toList = ["a;".toList] ∧ getlines "a ;".toList = ["a ;".toList] ∧
        remove_spaces_and_tabs "a;".toList = remove_spaces_and_tabs "a ;".toList ∧
        config.ctor [] (some "a;".toList) = .ok ⟨[], []⟩ ∧
        config.ctor [] (some "a ;".toList) = .error .incompatible_format) := by
  decide

/-! ## C20: writing a map as a file and loading it -/

theorem well_formed_entry_line {key value : List Char} (hk : stored_text key)
    (hv : stored_text value) : well_formed (entry_line key value) key value := by
  obtain ⟨hk0, hk1, hk2, hk3⟩ := hk
  obtain ⟨hv0, hv1, hv2, hv3⟩ := hv
  refine ⟨key ++ '=' :: value, [], by simp [entry_line], ?_, ?_, hk0, hv0, hk3, hv3⟩
  · simp only [List.mem_append, List.mem_cons, not_or]
    exact ⟨hk2, by decide, hv2⟩
  · apply List.filter_eq_self.mpr
    intro c hc
    simp only [List.mem_append, List.mem_cons] at hc
    rcases hc with hc | hc | hc
    · have : c ≠ ' ' := fun e => hk1 (e ▸ hc)
      simpa using this
    · rw [hc]
      decide
    · have : c ≠ ' ' := fun e => hv1 (e ▸ hc)
      simpa using this

theorem not_newline_entry_line {key value : List Char} (hk : '\n' ∉ key)
    (hv : '\n' ∉ value) : '\n' ∉ entry_line key value := by
  simp only [entry_line, List.mem_append, List.mem_cons, List.mem_singleton,
    List.not_mem_nil, or_false, not_or]
  exact ⟨hk, by decide, hv, by decide⟩

theorem getlines_file_of_entries (es : List (List Char × List Char))
    (h : ∀ e ∈ es, '\n' ∉ e.1 ∧ '\n' ∉ e.2) :
    getlines (file_of_entries es) = es.map (fun e => entry_line e.1 e.2) := by
  induction es with
  | nil => rfl
  | cons e rest ih =>
    obtain ⟨k, v⟩ := e
    have hkv := h (k, v) (List.mem_cons_self _ _)
    have ih' := ih (fun e he => h e (List.mem_cons_of_mem _ he))
    simp only [getlines] at ih' ⊢
    simp only [file_of_entries, List.map_cons,
      getlines_from_line [] _ _ (not_newline_entry_line hkv.1 hkv.2), ih']
    simp

theorem read_loop_entry_lines (es : List (List Char × List Char)) (m : Map)
    (h : ∀ e ∈ es, stored_text e.1 ∧ stored_text e.2) :
    read_loop (es.map (fun e => entry_line e.1 e.2)) m =
      .ok (es.foldl (fun m e => Map.insert e.1 e.2 m) m) := by
  induction es generalizing m with
  | nil => rfl
  | cons e rest ih =>
    have he := h e (List.mem_cons_self _ _)
    simp only [List.map_cons, read_loop,
      parse_line_well_formed (well_formed_entry_line he.1 he.2), List.foldl_cons]
    exact ih _ (fun e' he' => h e' (List.mem_cons_of_mem _ he'))

theorem Map.insert_perm {key value : List Char} {m : Map} (h : ∀ e ∈ m, e.1 ≠ key) :
    (Map.insert key value m).Perm ((key, value) :: m) := by
  induction m with
  | nil => exact List.Perm.refl _
  | cons e rest ih =>
    obtain ⟨k, v⟩ := e
    have hk : key ≠ k := fun e => h (k, v) (List.mem_cons_self _ _) e.symm
    by_cases h1 : str_lt key k = true
    · simp only [Map.insert, h1, ↓reduceIte]
      exact List.Perm.refl _
    · simp only [Map.insert, h1, hk, Bool.false_eq_true, ↓reduceIte]
      exact ((ih (fun e he => h e (List.mem_cons_of_mem _ he))).cons (k, v)).trans
        (List.Perm.swap _ _ _)

theorem foldl_insert_perm (es : List (List Char × List Char)) (m : Map)
    (hes : es.Pairwise (fun a b => a.1 ≠ b.1))
    (hdisj : ∀ e ∈ es, ∀ e' ∈ m, e'.1 ≠ e.1) :
    (es.foldl (fun m e => Map.insert e.1 e.2 m) m).Perm (es ++ m) := by
  induction es generalizing m with
  | nil => exact List.Perm.refl _
  | cons e rest ih =>
    obtain ⟨hhead, htail⟩ := List.pairwise_cons.mp hes
    have hins : (Map.insert e.1 e.2 m).Perm (e :: m) :=
      Map.insert_perm (hdisj e (List.mem_cons_self _ _))
    have hdisj' : ∀ x ∈ rest, ∀ y ∈ Map.insert e.1 e.2 m, y.1 ≠ x.1 := by
      intro x hx y hy
      rcases Map.mem_insert hy with hy | hy
      · rw [hy]
        exact hhead x hx
      · exact hdisj x (List.mem_cons_of_mem _ hx) y hy
    simp only [List.foldl_cons, List.cons_append]
    exact ((ih _ htail hdisj').trans (List.Perm.append_left rest hins)).trans
      List.perm_middle

theorem foldl_insert_sorted (es : List (List Char × List Char)) {m : Map}
    (hm : Map.sorted m) : Map.sorted (es.foldl (fun m e => Map.insert e.1 e.2 m) m) := by
  induction es generalizing m with
  | nil => exact hm
  | cons e rest ih => exact ih (Map.sorted_insert e.1 e.2 hm)

/-- Two maps with the same entries are the same map. -/
theorem Map.eq_of_perm {m₁ m₂ : Map} (hp : m₁.Perm m₂) (h₁ : Map.sorted m₁)
    (h₂ : Map.sorted m₂) : m₁ = m₂ := by
  haveI : IsAntisymm (List Char × List Char) (fun a b => str_lt a.1 b.1 = true) :=
    ⟨fun a b hab hba => by
      have := str_lt_trans hab hba
      rw [str_lt_irrefl] at this
      exact absurd this Bool.false_ne_true⟩
  exact List.eq_of_perm_of_sorted hp h₁ h₂

/-- C20: for every key `k` and value `v` that are non-empty and contain no space, `';'`,
`'='` or line break, loading the one-line file `k=v;` yields the map of exactly the entry
`k ↦ v`; and for every map whose keys and values are such, loading the file with one
line `k=v;` per entry, in any order of the entries, yields exactly that map. -/
theorem C20_round_trip :
    (∀ (name k v : List Char) (nl : Bool), stored_text k → '\n' ∉ k → stored_text v →
        '\n' ∉ v →
        config.ctor name (some (entry_line k v ++ if nl then ['\n'] else [])) =
          .ok { confile := name, content := [(k, v)] }) ∧
      ∀ (name : List Char) (m : Map) (es : List (List Char × List Char)),
        Map.sorted m → es.Perm m →
        (∀ e ∈ m, (stored_text e.1 ∧ '\n' ∉ e.1) ∧ stored_text e.2 ∧ '\n' ∉ e.2) →
        config.ctor name (some (file_of_entries es)) =
          .ok { confile := name, content := m } := by
  constructor
  · intro name k v nl hk hkn hv hvn
    exact ctor_single_line name (well_formed_entry_line hk hv)
      (not_newline_entry_line hkn hvn) nl
  · intro name m es hm hp hgood
    have hes : ∀ e ∈ es, (stored_text e.1 ∧ '\n' ∉ e.1) ∧ stored_text e.2 ∧ '\n' ∉ e.2 :=
      fun e he => hgood e (hp.subset he)
    have hkeys : es.Pairwise (fun a b => a.1 ≠ b.1) := by
      have hm' : m.Pairwise (fun a b => a.1 ≠ b.1) := by
        refine List.Pairwise.imp ?_ hm
        intro a b hab e
        rw [e, str_lt_irrefl] at hab
        exact Bool.false_ne_true hab
      exact (hp.pairwise_iff (fun {x y} (h : x.1 ≠ y.1) => h.symm)).mpr hm'
    have hperm := foldl_insert_perm es [] hkeys (fun _ _ e' he' => absurd he' (List.not_mem_nil e'))
    rw [List.append_nil] at hperm
    have heq : es.foldl (fun m e => Map.insert e.1 e.2 m) [] = m :=
      Map.eq_of_perm (hperm.trans hp) (foldl_insert_sorted es List.Pairwise.nil) hm
    simp only [config.ctor,
      getlines_file_of_entries es (fun e he => ⟨(hes e he).1.2, (hes e he).2.2⟩),
      read_loop_entry_lines es [] (fun e he => ⟨(hes e he).1.1, (hes e he).2.1⟩), heq]

/-- C20 on the map `alpha ↦ 0.9`, `n ↦ 50`, written with the line of `n` first. -/
theorem C20_round_trip_witness :
    config.ctor "f".toList
        (some (file_of_entries [("n".toList, "50".toList), ("alpha".toList, "0.9".toList)])) =
      .ok { confile := "f".toList,
            content := [("alpha".toList, "0.9".toList), ("n".toList, "50".toList)] } :=
  C20_round_trip.2 "f".toList [("alpha".toList, "0.9".toList), ("n".toList, "50".toList)]
    [("n".toList, "50".toList), ("alpha".toList, "0.9".toList)]
    (by simp [Map.sorted]; decide) (List.Perm.swap _ _ _)
    (by
      intro e he
      simp only [List.mem_cons, List.mem_singleton, List.not_mem_nil, or_false] at he
      rcases he with h | h <;> subst h <;>
        exact ⟨⟨⟨by decide, by decide, by decide, by decide⟩, by decide⟩,
          ⟨by decide, by decide, by decide, by decide⟩, by decide⟩)

end MyConfiguration
